import Mathlib

/-!
Verification development for the `collection-scanner` repository
(`src/collection_scanner/scanner.py`, `src/collection_scanner/utils.py`).

Keys of the hubstorage key-value store are strings ordered lexicographically;
we embed them as lists of character codes (`List Nat`) with the lexicographic
strict order `keyLt`, which matches Python string comparison.  Records are
embedded as a key, a timestamp (`_ts`, integer milliseconds) and the remaining
dictionary fields (an association list from field names, coded as `Nat`, to
integer values).  The remote store, an external collaborator of the scanner,
is modelled from the spec as a sorted list of records served page-wise.
-/

abbrev Key := List Nat

/-- Lexicographic strict order on keys; mirrors Python string `<`. -/
def keyLt : Key → Key → Bool
  | _, [] => false
  | [], _ :: _ => true
  | a :: as, b :: bs => if a < b then true else if b < a then false else keyLt as bs

/-- Python `max` on two keys (`max(requested_startafter, self.cache[-1][0])`,
scanner.py line 88). -/
def keyMax (a b : Key) : Key := if keyLt a b then b else a

theorem keyLt_irrefl (k : Key) : keyLt k k = false := by
  induction k with
  | nil => rfl
  | cons a as ih => simp [keyLt, ih]

theorem keyLt_trans {a b c : Key} (h1 : keyLt a b = true) (h2 : keyLt b c = true) :
    keyLt a c = true := by
  induction a generalizing b c with
  | nil =>
    cases b with
    | nil => exact absurd h1 (by simp [keyLt])
    | cons y ys =>
      cases c with
      | nil => exact absurd h2 (by simp [keyLt])
      | cons z zs => simp [keyLt]
  | cons x xs ih =>
    cases b with
    | nil => exact absurd h1 (by simp [keyLt])
    | cons y ys =>
      cases c with
      | nil => exact absurd h2 (by simp [keyLt])
      | cons z zs =>
        simp only [keyLt] at h1 h2 ⊢
        rcases Nat.lt_trichotomy x y with hxy | hxy | hxy
        · rw [if_pos hxy] at h1
          rcases Nat.lt_trichotomy y z with hyz | hyz | hyz
          · rw [if_pos (Nat.lt_trans hxy hyz)]
          · subst hyz; rw [if_pos hxy]
          · rw [if_neg (Nat.lt_asymm hyz), if_pos hyz] at h2
            exact absurd h2 (by simp)
        · subst hxy
          rw [if_neg (Nat.lt_irrefl x), if_neg (Nat.lt_irrefl x)] at h1
          rcases Nat.lt_trichotomy x z with hxz | hxz | hxz
          · rw [if_pos hxz]
          · subst hxz
            rw [if_neg (Nat.lt_irrefl x), if_neg (Nat.lt_irrefl x)] at h2 ⊢
            exact ih h1 h2
          · rw [if_neg (Nat.lt_asymm hxz), if_pos hxz] at h2
            exact absurd h2 (by simp)
        · rw [if_neg (Nat.lt_asymm hxy), if_pos hxy] at h1
          exact absurd h1 (by simp)

theorem keyLt_conn {a b : Key} (h1 : keyLt a b = false) (h2 : keyLt b a = false) : a = b := by
  induction a generalizing b with
  | nil =>
    cases b with
    | nil => rfl
    | cons y ys => exact absurd h1 (by simp [keyLt])
  | cons x xs ih =>
    cases b with
    | nil => exact absurd h2 (by simp [keyLt])
    | cons y ys =>
      simp only [keyLt] at h1 h2
      rcases Nat.lt_trichotomy x y with hxy | hxy | hxy
      · rw [if_pos hxy] at h1
        exact absurd h1 (by simp)
      · subst hxy
        rw [if_neg (Nat.lt_irrefl x), if_neg (Nat.lt_irrefl x)] at h1 h2
        rw [ih h1 h2]
      · rw [if_pos hxy] at h2
        exact absurd h2 (by simp)

theorem keyLt_asymm {a b : Key} (h : keyLt a b = true) : keyLt b a = false := by
  by_contra hc
  have hba : keyLt b a = true := by
    cases hv : keyLt b a
    · exact absurd hv hc
    · rfl
  have := keyLt_trans h hba
  rw [keyLt_irrefl] at this
  exact Bool.noConfusion this

theorem keyLt_tri (a b : Key) : keyLt a b = true ∨ a = b ∨ keyLt b a = true := by
  cases h1 : keyLt a b
  · cases h2 : keyLt b a
    · exact Or.inr (Or.inl (keyLt_conn h1 h2))
    · exact Or.inr (Or.inr rfl)
  · exact Or.inl rfl

/-- From `a ≤ b` (no `keyLt b a`) and `b < c` conclude `a < c`. -/
theorem keyLt_of_le_of_lt {a b c : Key} (h1 : keyLt b a = false) (h2 : keyLt b c = true) :
    keyLt a c = true := by
  rcases keyLt_tri a b with h | h | h
  · exact keyLt_trans h h2
  · subst h; exact h2
  · rw [h] at h1; exact Bool.noConfusion h1

/-- From `a < b` and `b ≤ c` conclude `a < c`. -/
theorem keyLt_of_lt_of_le {a b c : Key} (h1 : keyLt a b = true) (h2 : keyLt c b = false) :
    keyLt a c = true := by
  rcases keyLt_tri b c with h | h | h
  · exact keyLt_trans h1 h
  · subst h; exact h1
  · rw [h] at h2; exact Bool.noConfusion h2

theorem keyLt_keyMax_left {a b c : Key} (h : keyLt (keyMax a b) c = true) : keyLt a c = true := by
  unfold keyMax at h
  by_cases hab : keyLt a b = true
  · rw [if_pos hab] at h; exact keyLt_trans hab h
  · rw [if_neg hab] at h; exact h

theorem keyLt_keyMax_right {a b c : Key} (h : keyLt (keyMax a b) c = true) : keyLt b c = true := by
  unfold keyMax at h
  by_cases hab : keyLt a b = true
  · rw [if_pos hab] at h; exact h
  · rw [if_neg hab] at h
    rcases keyLt_tri a b with h1 | h1 | h1
    · exact absurd h1 hab
    · subst h1; exact h
    · exact keyLt_trans h1 h

theorem keyLt_append_same (p a b : Key) : keyLt (p ++ a) (p ++ b) = keyLt a b := by
  induction p with
  | nil => rfl
  | cons x xs ih => simp [keyLt, ih]

/-- Sentinel character `LIMIT_KEY_CHAR = '~'` (utils.py line 5), code 126. -/
def limitKeyChar : Nat := 126

/-- All characters of a key sort strictly before the sentinel character.
The spec documents this as a required invariant of the key encoding. -/
def tildeFree (k : Key) : Bool := k.all (fun c => c < limitKeyChar)

/-- A prefix followed by the sentinel sorts after every sentinel-bounded key
having that prefix. -/
theorem keyLt_sentinel {p k : Key} (hp : p <+: k) (hb : tildeFree k = true) :
    keyLt k (p ++ [limitKeyChar]) = true := by
  rcases hp with ⟨t, rfl⟩
  rw [keyLt_append_same]
  cases t with
  | nil => simp [keyLt]
  | cons c cs =>
    have hc : c < limitKeyChar := by
      have := List.all_eq_true.mp hb c (by simp)
      simpa using this
    simp [keyLt, hc]

/-- Records as fetched from hubstorage with meta `{'_key', '_ts'}`: the key,
the timestamp and the remaining dictionary fields (field name codes to
integer values). -/
structure Record where
  key : Key
  ts : Int
  fields : List (Nat × Int)
deriving DecidableEq

/-- Python `dict` entry assignment `d[k] = v`: replace in place, else append. -/
def setField (d : List (Nat × Int)) (k : Nat) (v : Int) : List (Nat × Int) :=
  if d.any (fun p => p.1 == k) then d.map (fun p => if p.1 == k then (p.1, v) else p)
  else d ++ [(k, v)]

/-- Python `dest.update(src)`: assign each entry of `src` into `dest` in order. -/
def updateFields (d src : List (Nat × Int)) : List (Nat × Int) :=
  src.foldl (fun acc p => setField acc p.1 p.2) d

/-- Modelled from the spec: the remote hubstorage collection store (an external
collaborator, spec section 6).  It holds records sorted ascending by key and
serves `get(count, startafter, start)` pages: with a `start` key the page is
the first `count` records with key greater or equal to `start` (and, per the
comment at scanner.py line 240, `startafter` is then ignored by the server);
otherwise the first `count` records with key strictly greater than
`startafter`. -/
def storeGet (store : List Record) (count : Nat) (startafter startKey : Option Key) :
    List Record :=
  match startKey with
  | some s => (store.filter (fun r => keyLt r.key s = false)).take count
  | none =>
    match startafter with
    | some sa => (store.filter (fun r => keyLt sa r.key)).take count
    | none => store.take count

/-- Inner per-partition fetch loop of `_CachedBlocksCollection.get`
(scanner.py lines 90-99): keep reading pages, advancing the local
`startafter`, until the partition yields no data or the requested count is
reached.  The `fuel` argument only bounds the recursion; `fetchAll` below
passes `count`, which always suffices because every productive page has at
least one record. -/
def fetchLoop (store : List Record) (startKey : Option Key) :
    Nat → Nat → Option Key → List Record
  | 0, _, _ => []
  | _ + 1, 0, _ => []
  | fuel + 1, remaining + 1, sa =>
    let page := storeGet store (remaining + 1) sa startKey
    match page.getLast? with
    | none => []
    | some lastR => page ++ fetchLoop store startKey fuel (remaining + 1 - page.length) (some lastR.key)

def fetchAll (store : List Record) (count : Nat) (sa startKey : Option Key) : List Record :=
  fetchLoop store startKey count count sa

/-- Cache-window trim of `_CachedBlocksCollection.get` (scanner.py lines
74-83): the `for` loop slices the cache from the first entry whose key
exceeds the requested `startafter` (no slice when there is none), then the
`while` loop pops leading entries with key strictly below it. -/
def findCut (s : Key) : List (Key × Record) → Option (List (Key × Record))
  | [] => none
  | e :: rest => if keyLt s e.1 then some (e :: rest) else findCut s rest

def trimCache (cache : List (Key × Record)) (s : Key) : List (Key × Record) :=
  (match findCut s cache with
   | some suffix => suffix
   | none => cache).dropWhile (fun e => keyLt e.1 s)

/-- Total preorder used to embed Python's stable `sorted(cache, key=itemgetter(0))`. -/
def pairLe (a b : Key × Record) : Prop := keyLt b.1 a.1 = false

instance : DecidableRel pairLe := fun a b => by unfold pairLe; infer_instance

instance : IsTotal (Key × Record) pairLe where
  total a b := by
    unfold pairLe
    rcases keyLt_tri a.1 b.1 with h | h | h
    · exact Or.inl (keyLt_asymm h)
    · exact Or.inl (by rw [h, keyLt_irrefl])
    · exact Or.inr (keyLt_asymm h)

instance : IsTrans (Key × Record) pairLe where
  trans a b c h1 h2 := by
    unfold pairLe at h1 h2 ⊢
    cases hv : keyLt c.1 a.1
    · rfl
    · rcases keyLt_tri a.1 b.1 with h | h | h
      · have := keyLt_trans hv h
        rw [this] at h2
        exact Bool.noConfusion h2
      · rw [← h] at h2
        rw [h2] at hv
        exact Bool.noConfusion hv
      · rw [h] at h1
        exact Bool.noConfusion h1

/-- State of `_CachedBlocksCollection`: the partition stores (one per physical
partition; constant) and the cache window of `(key, record)` pairs. -/
structure CachedCol where
  stores : List (List Record)
  cache : List (Key × Record)
deriving DecidableEq

/-- Body of `_CachedBlocksCollection.get` (scanner.py lines 61-106) up to the
final yield loop: trim the cache against the requested `startafter` (a `None`
`startafter` clears it), fetch fresh blocks from every partition when the
trimmed cache holds fewer than `count * number-of-partitions` entries
(starting after the newest cached key, or after `startafter` when the cache
is empty), sort the fresh block by key and append it to the cache.  The
result is the cache list from which the yield loop pops. -/
def trimmedCache (c : CachedCol) (sa : Option Key) : List (Key × Record) :=
  match sa with
  | none => []
  | some s => trimCache c.cache s

def fetchStartAfter (c1 : List (Key × Record)) (sa : Option Key) : Option Key :=
  match c1.getLast? with
  | none => sa
  | some e =>
    match sa with
    | some s => some (keyMax s e.1)
    | none => some e.1

def freshRecords (stores : List (List Record)) (count : Nat) (c1len : Nat)
    (fsa startKey : Option Key) : List Record :=
  if c1len < count * stores.length then
    (stores.map (fun st => fetchAll st count fsa startKey)).flatten
  else []

def cachedPrepare (c : CachedCol) (count : Nat) (sa startKey : Option Key) :
    List (Key × Record) :=
  let c1 := trimmedCache c sa
  let fresh := freshRecords c.stores count c1.length (fetchStartAfter c1 sa) startKey
  let freshSorted := List.insertionSort pairLe (fresh.map (fun r => (r.key, r)))
  if c1.isEmpty then freshSorted else c1 ++ freshSorted

/-- A full (not broken-out-of) consumption of the `_CachedBlocksCollection.get`
generator: yield up to `count` records popped from the front of the prepared
cache; the remainder stays cached.  Consumers that break out of the generator
early (the scanner's batch loop) are modelled at their call site by dropping
only the records actually pulled. -/
def CachedCol.get (c : CachedCol) (count : Nat) (sa startKey : Option Key) :
    List Record × CachedCol :=
  let prepared := cachedPrepare c count sa startKey
  ((prepared.take count).map Prod.snd, { c with cache := prepared.drop count })

/-- One per-key accumulator entry of `get_secondary_data` (scanner.py lines
196-216): the merged non-key fields and the `'_ts'` entry of the dict. -/
structure SecEntry where
  fields : List (Nat × Int)
  ts : Int
deriving DecidableEq

/-- Python `secondary_data.pop(key, None)` on the association list. -/
def popEntry (m : List (Key × SecEntry)) (k : Key) : Option SecEntry × List (Key × SecEntry) :=
  match m.find? (fun p => p.1 == k) with
  | none => (none, m)
  | some p => (some p.2, m.eraseP (fun q => q.1 == k))

/-- Per-record body of `get_secondary_data` (scanner.py lines 205-210): pop
`'_key'` and `'_ts'` off the record, `update` the per-key dict with the
remaining fields, then keep the maximum `'_ts'` seen for the key (the key's
dict is created empty on first touch, so its first record always sets
`'_ts'`). -/
def secUpdateRecord (m : List (Key × SecEntry)) (r : Record) : List (Key × SecEntry) :=
  match m.find? (fun p => p.1 == r.key) with
  | none => m ++ [(r.key, ⟨updateFields [] r.fields, r.ts⟩)]
  | some p =>
    let e := p.2
    let e2 : SecEntry := ⟨updateFields e.fields r.fields, if r.ts > e.ts then r.ts else e.ts⟩
    m.map (fun q => if q.1 == r.key then (q.1, e2) else q)

/-- Loop over the secondary collections in `get_secondary_data` (scanner.py
lines 200-215): skip collections already flagged depleted; otherwise fetch a
window with `start=startKey` (inclusive; no `startafter` is passed, so the
accessor clears its cache), fold the records into the accumulator, remember
the last key seen, and flag the collection depleted when the window came back
short. -/
def secLoop (mnr : Nat) (startKey : Key) :
    List (Nat × CachedCol) → List Nat → Option Key → List (Key × SecEntry) →
    List (Nat × CachedCol) × List Nat × Option Key × List (Key × SecEntry)
  | [], ie, last, m => ([], ie, last, m)
  | (nm, col) :: rest, ie, last, m =>
    if ie.contains nm then
      let r := secLoop mnr startKey rest ie last m
      ((nm, col) :: r.1, r.2)
    else
      let fetched := CachedCol.get col mnr none (some startKey)
      let last1 := match fetched.1.getLast? with
        | some r => some r.key
        | none => last
      let m1 := fetched.1.foldl secUpdateRecord m
      let ie1 := if fetched.1.length < mnr then nm :: ie else ie
      let r := secLoop mnr startKey rest ie1 last1 m1
      ((nm, fetched.2) :: r.1, r.2)

/-- Scanner state: the fields set by `CollectionScanner.__init__` (scanner.py
lines 155-183) that the scanning engine reads or writes.  `start` holds
`self.__start` (the one-shot server-side seek key, `''` embedded as `none`);
`keyReq`/`tsReq` record whether `'_key'`/`'_ts'` are in the caller's
`original_meta`. -/
structure ScannerState where
  col : CachedCol
  secondary : List (Nat × CachedCol)
  secondaryIsEmpty : List Nat
  scannedCount : Nat
  totalcount : Nat
  lastkey : Option Key
  startafter : Option Key
  stopbefore : Option Key
  excludePrefixes : List Key
  batchsize : Nat
  maxNextRecords : Nat
  enabled : Bool
  start : Option Key
  endts : Option Int
  keyReq : Bool
  tsReq : Bool
deriving DecidableEq

/-- `CollectionScanner._get_max_next_records` (scanner.py lines 285-289). -/
def getMaxNextRecords (st : ScannerState) (batchcount : Nat) : Nat :=
  let m := min st.maxNextRecords batchcount
  if st.totalcount ≠ 0 then min m (st.totalcount - st.scannedCount) else m

/-- `CollectionScanner.get_secondary_data` (scanner.py lines 196-216).
Returns the last secondary key seen, the accumulated per-key data, and the
state with updated secondary accessors and depletion flags. -/
def getSecondaryData (st : ScannerState) (startKey : Key) :
    Option Key × List (Key × SecEntry) × ScannerState :=
  let mnr := getMaxNextRecords st st.batchsize
  let r := secLoop mnr startKey st.secondary st.secondaryIsEmpty none []
  (r.2.2.1, r.2.2.2, { st with secondary := r.1, secondaryIsEmpty := r.2.1 })

/-- Merge of the popped secondary entry into the primary record (scanner.py
lines 262-267).  The popped dict `srecord` contains a `'_ts'` entry, so
`r.update(srecord)` overwrites the record's `'_ts'` with the secondary one
before the `if ts > r['_ts']` comparison runs; that comparison therefore
compares the secondary timestamp with itself and its branch is dead.  The
embedding mirrors the source statement by statement. -/
def mergeSecondary (r : Record) (entry : Option SecEntry) : Record :=
  match entry with
  | none => r
  | some e =>
    let rUpd : Record := { r with ts := e.ts, fields := updateFields r.fields e.fields }
    if e.ts > rUpd.ts then { rUpd with ts := e.ts } else rUpd

/-- `stopbefore` test of scanner.py line 248. -/
def stopMatch (st : ScannerState) (r : Record) : Bool :=
  match st.stopbefore with
  | some p => p.isPrefixOf r.key
  | none => false

/-- Client-side end-timestamp skip of scanner.py line 269 (`if self.__endts
and r['_ts'] > self.__endts`; a zero `endts` is falsy in Python). -/
def endtsSkip (st : ScannerState) (r : Record) : Bool :=
  match st.endts with
  | some e => if e = 0 then false else decide (e < r.ts)
  | none => false

/-- The secondary refresh of scanner.py lines 260-261: when the cursor moved
past the last secondary key (or no secondary fetch happened yet), refresh the
secondary data; otherwise keep the current locals. -/
def secRefresh (st1 : ScannerState) (k : Key) (refresh : Bool) (lastSecKey : Option Key)
    (secMap : List (Key × SecEntry)) : Option Key × List (Key × SecEntry) × ScannerState :=
  if refresh then getSecondaryData st1 k else (lastSecKey, secMap, st1)

/-- Result of consuming one prepared page inside `get_new_batch`'s `while`
loop body (scanner.py lines 245-280): the updated scanner state, the
remaining batch budget, the secondary-join locals, how many records were
pulled from the accessor generator, the `count`/`jump_prefix` locals, the key
of the record that matched `stopbefore` (if any), and the records yielded. -/
structure PageOut where
  st : ScannerState
  batchcount : Nat
  lastSecKey : Option Key
  secMap : List (Key × SecEntry)
  consumed : Nat
  count : Nat
  jump : Bool
  stopKey : Option Key
  yields : List Record
deriving DecidableEq

/-- The `for r in self.col.get(...)` body of `get_new_batch` (scanner.py
lines 247-280), processed record by record: a `stopbefore` match disables the
scanner and abandons the page; an exclude-prefix match jumps the cursor to
`exclude + LIMIT_KEY_CHAR` and abandons the page; otherwise the cursor
advances to the record's key, secondary data is refreshed when the key moved
past the last secondary key, the secondary entry for the key is popped and
merged, and the record is yielded unless the `endts` cutoff skips it. -/
def processPage (st : ScannerState) (batchcount : Nat) (lastSecKey : Option Key)
    (secMap : List (Key × SecEntry)) : List Record → PageOut
  | [] => ⟨st, batchcount, lastSecKey, secMap, 0, 0, false, none, []⟩
  | r :: rs =>
    if stopMatch st r then
      ⟨{ st with enabled := false }, batchcount, lastSecKey, secMap, 1, 0, false, some r.key, []⟩
    else
      match st.excludePrefixes.find? (fun e => e.isPrefixOf r.key) with
      | some e =>
        ⟨{ st with startafter := some (e ++ [limitKeyChar]) }, batchcount, lastSecKey, secMap,
          1, 1, true, none, []⟩
      | none =>
        let st1 := { st with startafter := some r.key, lastkey := some r.key }
        let refresh : Bool := match lastSecKey with
          | none => true
          | some k => keyLt k r.key
        let sec := secRefresh st1 r.key refresh lastSecKey secMap
        let popped := popEntry sec.2.1 r.key
        let r1 := mergeSecondary r popped.1
        if endtsSkip sec.2.2 r1 then
          let rest := processPage sec.2.2 batchcount sec.1 popped.2 rs
          { rest with consumed := rest.consumed + 1, count := rest.count + 1 }
        else
          let st3 := { sec.2.2 with scannedCount := sec.2.2.scannedCount + 1 }
          let rest := processPage st3 (batchcount - 1) sec.1 popped.2 rs
          { rest with consumed := rest.consumed + 1, count := rest.count + 1,
                      yields := r1 :: rest.yields }

/-- Result of a full `get_new_batch` generator run: the records yielded (in
pre-strip form, i.e. still carrying `_key` and `_ts`), the final scanner
state, and the key of the `stopbefore` match if one fired. -/
structure RunOut where
  yields : List Record
  st : ScannerState
  stopKey : Option Key
deriving DecidableEq

/-- One iteration of the `while max_next_records and self.__enabled` loop of
`get_new_batch` (scanner.py lines 244-282): prepare a page of up to
`max_next_records` records from the accessor, consume it (the accessor's
cache keeps whatever the generator did not pull, so the cache afterwards is
the prepared list minus the records actually pulled), then recompute
`self.__enabled` per line 281. -/
def batchStep (st : ScannerState) (batchcount mnr : Nat) (lastSecKey : Option Key)
    (secMap : List (Key × SecEntry)) (startKey : Option Key) : PageOut × ScannerState :=
  let prepared := cachedPrepare st.col mnr st.startafter startKey
  let page := (prepared.take mnr).map Prod.snd
  let po := processPage st batchcount lastSecKey secMap page
  let st1 : ScannerState :=
    { po.st with col := { po.st.col with cache := prepared.drop po.consumed } }
  let enabled2 := (decide (mnr ≤ po.count) &&
    (st1.totalcount == 0 || decide (st1.scannedCount < st1.totalcount))) || po.jump
  (po, { st1 with enabled := enabled2 })

/-- The `while max_next_records and self.__enabled` loop of `get_new_batch`
(scanner.py lines 244-283), iterating `batchStep` and recomputing
`max_next_records` per line 283.  `fuel` bounds the number of loop
iterations only; the loop stops by itself when `max_next_records` is zero or
the scanner is disabled. -/
def runBatch (fuel : Nat) (st : ScannerState) (batchcount mnr : Nat)
    (lastSecKey : Option Key) (secMap : List (Key × SecEntry)) (startKey : Option Key)
    (acc : List Record) (stopAcc : Option Key) : Option RunOut :=
  if mnr = 0 || !st.enabled then some ⟨acc, st, stopAcc⟩
  else
    match fuel with
    | 0 => none
    | fuel' + 1 =>
      let s := batchStep st batchcount mnr lastSecKey secMap startKey
      let mnr2 := getMaxNextRecords s.2 s.1.batchcount
      let stopAcc2 := match stopAcc with
        | some k => some k
        | none => s.1.stopKey
      runBatch fuel' s.2 s.1.batchcount mnr2 s.1.lastSecKey s.1.secMap startKey
        (acc ++ s.1.yields) stopAcc2

/-- `CollectionScanner.get_new_batch` (scanner.py lines 228-283) run to
exhaustion: set up the batch budget, compute the first `max_next_records`,
consume the one-shot `start` seek key, and run the fetch loop. -/
def getNewBatch (fuel : Nat) (st : ScannerState) : Option RunOut :=
  let batchcount := st.batchsize
  let mnr := getMaxNextRecords st batchcount
  let startKey := st.start
  let st0 := { st with start := none }
  runBatch fuel st0 batchcount mnr none [] startKey [] none

/-- `CollectionScanner.scan_collection_batches` (scanner.py lines 291-295):
while enabled, materialise one batch and yield it when non-empty.  The outer
`fuel` bounds the number of batch iterations, `innerFuel` is handed to each
`get_new_batch` run.  Also returns the final state and the first `stopbefore`
match key of the whole scan. -/
def scanBatches (fuel innerFuel : Nat) (st : ScannerState) :
    Option (List (List Record) × ScannerState × Option Key) :=
  match fuel with
  | 0 => none
  | f + 1 =>
    if !st.enabled then some ([], st, none)
    else
      match getNewBatch innerFuel st with
      | none => none
      | some ro =>
        match scanBatches f innerFuel ro.st with
        | none => none
        | some (bs, st2, k) =>
          some ((if ro.yields.isEmpty then bs else ro.yields :: bs), st2,
            match ro.stopKey with
            | some k0 => some k0
            | none => k)

/-- `CollectionScanner.reset` (scanner.py lines 185-194). -/
def ScannerState.reset (st : ScannerState) : ScannerState :=
  { st with scannedCount := 0, totalcount := 0, lastkey := none, startafter := none,
            secondaryIsEmpty := [], enabled := true }

/-- A record as actually yielded to the caller after scanner.py lines
272-274 pop `'_key'` and `'_ts'` when they are not in the caller's
`original_meta`. -/
structure OutRecord where
  key : Option Key
  ts : Option Int
  fields : List (Nat × Int)
deriving DecidableEq

def stripRecord (keyReq tsReq : Bool) (r : Record) : OutRecord :=
  ⟨if keyReq then some r.key else none, if tsReq then some r.ts else none, r.fields⟩

/-- Scanner construction (`CollectionScanner.__init__`, scanner.py lines
155-183) from already-discovered partition stores and existing secondary
collections (partition discovery and `filter_collections_exist` are applied
by the constructor before these reach the scanning engine). -/
def mkScanner (stores : List (List Record)) (secondary : List (Nat × List Record))
    (count batchsize maxNextRecords : Nat) (startafter stopbefore : Option Key)
    (excludes : List Key) (startKey : Option Key) (endts : Option Int)
    (keyReq tsReq : Bool) : ScannerState :=
  { col := ⟨stores, []⟩,
    secondary := secondary.map (fun p => (p.1, ⟨[p.2], []⟩)),
    secondaryIsEmpty := [],
    scannedCount := 0,
    totalcount := count,
    lastkey := none,
    startafter := startafter,
    stopbefore := stopbefore,
    excludePrefixes := excludes,
    batchsize := batchsize,
    maxNextRecords := maxNextRecords,
    enabled := true,
    start := startKey,
    endts := endts,
    keyReq := keyReq,
    tsReq := tsReq }

/-- Digit character test for the `\d` class of the partition regex. -/
def isDigitCode (c : Nat) : Bool := 48 ≤ c && c ≤ 57

/-- Integer value of a run of digit character codes (Python `int(...)`). -/
def digitsVal (ds : List Nat) : Nat := ds.foldl (fun a c => a * 10 + (c - 48)) 0

/-- One entry match of the pattern `re.compile(r'%s_(\d+)' % collection_name)`
with `re.match` (utils.py lines 18-22), for a literal base name: the entry
name must start with the base name, an underscore (code 95) and at least one
digit; the captured group is the maximal digit run following (the match is
anchored at the start only, so trailing characters are allowed and leading
zeros are kept in the integer conversion). -/
def matchPartition (base name : List Nat) : Option Nat :=
  if (base ++ [95]).isPrefixOf name then
    let ds := (name.drop (base.length + 1)).takeWhile isDigitCode
    if ds.isEmpty then none else some (digitsVal ds)
  else none

/-- Python `max(partitions)` (meaningful on the non-empty lists it is applied
to). -/
def maxIdx (l : List Nat) : Nat := l.foldl max 0

/-- `get_num_partitions` (utils.py lines 13-25): collect the indices of all
listed collection names matching the partition pattern; if any matched,
return their number when it equals the maximum index plus one, else `none`
(Python falls off the function, returning `None`). -/
def get_num_partitions (base : List Nat) (entries : List (List Nat)) : Option Nat :=
  let parts := entries.filterMap (matchPartition base)
  if parts.isEmpty then none
  else if parts.length = maxIdx parts + 1 then some parts.length else none

/-- Outcome of one attempt of a remote fetch operation: a value, or an
exception whose `Bool` payload records `isinstance(e, KeyboardInterrupt)`. -/
inductive FetchOutcome (A : Type) where
  | ok : A → FetchOutcome A
  | err : Bool → FetchOutcome A
deriving DecidableEq

/-- `retry_on_exception` (utils.py lines 8-10): retry on anything but a
`KeyboardInterrupt` (the `print` is a side effect with no bearing on the
returned decision). -/
def retry_on_exception (isKeyboardInterrupt : Bool) : Bool := !isKeyboardInterrupt

/-- Modelled from the spec: the bounded-retry engine of the external
`retrying` package (spec section 4.2), which is not part of this repository.
`op i` is the outcome the wrapped zero-argument operation would produce on
attempt `i` (0-based); `remaining` is the number of attempts still allowed.
On success return the value; on an exception consult the retry predicate:
a non-retryable (user-interrupt) exception or an exhausted attempt budget
re-raises the exception just caught, otherwise wait `wait` milliseconds and
retry.  Returns (attempts made, total milliseconds waited, final outcome). -/
def retryGo {A : Type} (op : Nat → FetchOutcome A) (wait : Nat) :
    Nat → Nat → Nat × Nat × FetchOutcome A
  | i, 0 => (0, 0, op i)
  | i, remaining + 1 =>
    match op i with
    | .ok a => (1, 0, .ok a)
    | .err ki =>
      if retry_on_exception ki && remaining != 0 then
        let r := retryGo op wait (i + 1) remaining
        (r.1 + 1, r.2.1 + wait, r.2.2)
      else (1, 0, .err ki)

/-- `_CachedBlocksCollection._read_from_collection` (scanner.py lines
114-116): the remote read wrapped by `@retry(wait_fixed=120000,
retry_on_exception=retry_on_exception, stop_max_attempt_number=10)`. -/
def readFromCollection {A : Type} (op : Nat → FetchOutcome A) : Nat × Nat × FetchOutcome A :=
  retryGo op 120000 0 10

/-- Strict ascending-by-key ordering as a proposition on single keys. -/
def KLT (a b : Key) : Prop := keyLt a b = true

/-- Executable strict-sortedness check of a key list (adjacent pairs). -/
def sortedKeys : List Key → Bool
  | [] => true
  | [_] => true
  | a :: b :: t => keyLt a b && sortedKeys (b :: t)

/-- One partition store is well formed: records strictly ascending by key and
all keys sentinel-bounded (spec sections 3 and 9). -/
def storeWF (s : List Record) : Bool :=
  sortedKeys (s.map (·.key)) && s.all (fun r => tildeFree r.key)

/-- Pairwise key-disjointness of the partition stores (spec section 3). -/
def storesDisjoint : List (List Record) → Bool
  | [] => true
  | s :: rest =>
    rest.all (fun t => s.all (fun r => !(t.any (fun q => q.key == r.key)))) && storesDisjoint rest

def storesWF (S : List (List Record)) : Bool := S.all storeWF && storesDisjoint S

def allRecords (S : List (List Record)) : List Record := S.flatten

def allStoreKeys (S : List (List Record)) : List Key := (allRecords S).map (·.key)

/-- Well-formedness of the accessor's cache window: entries strictly
ascending by stored key, each stored key equal to its record's key, and each
key present among the partition stores' keys. -/
def cacheWF (c : CachedCol) : Bool :=
  sortedKeys (c.cache.map (·.1)) &&
  c.cache.all (fun e => e.1 == e.2.key && (allRecords c.stores).any (fun r => r.key == e.1))

/-- The current cursor key is not a cached key (true in every state the
scanner reaches from a fresh construction: the cache only holds keys strictly
beyond the cursor, except transiently after an exclude jump, whose sentinel
cursor key cannot be a store key). -/
def saWF (st : ScannerState) : Bool :=
  match st.startafter with
  | none => true
  | some s => !(st.col.cache.any (fun e => e.1 == s))

/-- Records remaining beyond the cursor: the termination measure of the
batch loop. -/
def saLtB (sa : Option Key) (k : Key) : Bool :=
  match sa with
  | none => true
  | some s => keyLt s k

def remBeyond (S : List (List Record)) (sa : Option Key) : Nat :=
  ((allRecords S).filter (fun r => saLtB sa r.key)).length

theorem pairwise_of_sortedKeys {l : List Key} (h : sortedKeys l = true) : List.Pairwise KLT l := by
  induction l with
  | nil => exact List.Pairwise.nil
  | cons a t ih =>
    cases t with
    | nil => simp
    | cons b t2 =>
      simp only [sortedKeys, Bool.and_eq_true] at h
      have hrest := ih h.2
      refine List.Pairwise.cons ?_ hrest
      intro x hx
      rcases List.mem_cons.mp hx with rfl | hx2
      · exact h.1
      · exact keyLt_trans h.1 (List.rel_of_pairwise_cons hrest hx2)

theorem klt_ne {a b : Key} (h : KLT a b) : a ≠ b := by
  intro he
  subst he
  unfold KLT at h
  rw [keyLt_irrefl] at h
  exact Bool.noConfusion h

theorem nodup_of_pairwise_klt {ks : List Key} (h : List.Pairwise KLT ks) : ks.Nodup :=
  h.imp klt_ne

theorem pairwise_le_getLast {ks : List Key} {m k : Key} (hp : List.Pairwise KLT ks)
    (hm : ks.getLast? = some m) (hk : k ∈ ks) : keyLt m k = false := by
  induction ks with
  | nil => cases hk
  | cons a t ih =>
    cases t with
    | nil =>
      simp at hm hk
      subst hm; subst hk
      exact keyLt_irrefl k
    | cons b t2 =>
      rw [List.getLast?_cons_cons] at hm
      rcases List.mem_cons.mp hk with rfl | hk2
      · have hmme : m ∈ b :: t2 := List.mem_of_mem_getLast? hm
        have : KLT k m := List.rel_of_pairwise_cons hp hmme
        exact keyLt_asymm this
      · exact ih (List.Pairwise.sublist (List.sublist_cons_self a (b :: t2)) hp) hm hk2

theorem filter_length_le_mono {α : Type} {l : List α} {p q : α → Bool}
    (h : ∀ x ∈ l, p x = true → q x = true) :
    (l.filter p).length ≤ (l.filter q).length := by
  induction l with
  | nil => simp
  | cons a t ih =>
    have ht := ih (fun x hx => h x (List.mem_cons_of_mem a hx))
    by_cases hp : p a = true
    · have hq := h a (List.mem_cons_self a t) hp
      simp [List.filter_cons, hp, hq]
      omega
    · have hp2 : p a = false := by
        cases hv : p a
        · rfl
        · exact absurd hv hp
      by_cases hq : q a = true
      · simp [List.filter_cons, hp2, hq]
        omega
      · have hq2 : q a = false := by
          cases hv : q a
          · rfl
          · exact absurd hv hq
        simp [List.filter_cons, hp2, hq2]
        exact ht

theorem filter_length_lt {α : Type} {l : List α} {p q : α → Bool} {a : α}
    (h : ∀ x ∈ l, p x = true → q x = true) (ha : a ∈ l) (hqa : q a = true)
    (hpa : p a = false) : (l.filter p).length < (l.filter q).length := by
  induction l with
  | nil => cases ha
  | cons x t ih =>
    rcases List.mem_cons.mp ha with rfl | ha2
    · have ht := filter_length_le_mono (fun y hy => h y (List.mem_cons_of_mem a hy))
      simp [List.filter_cons, hpa, hqa]
      omega
    · have ht := ih (fun y hy => h y (List.mem_cons_of_mem x hy)) ha2
      by_cases hp : p x = true
      · have hq := h x (List.mem_cons_self x t) hp
        simp [List.filter_cons, hp, hq]
        omega
      · have hp2 : p x = false := by
          cases hv : p x
          · rfl
          · exact absurd hv hp
        by_cases hq : q x = true
        · simp [List.filter_cons, hp2, hq]
          omega
        · have hq2 : q x = false := by
            cases hv : q x
            · rfl
            · exact absurd hv hq
          simp [List.filter_cons, hp2, hq2]
          exact ht

theorem storeGet_sublist (store : List Record) (count : Nat) (sa sk : Option Key) :
    (storeGet store count sa sk).Sublist store := by
  unfold storeGet
  cases sk with
  | some s => exact ((store.filter _).take_sublist count).trans (List.filter_sublist store)
  | none =>
    cases sa with
    | some a => exact ((store.filter _).take_sublist count).trans (List.filter_sublist store)
    | none => exact store.take_sublist count

theorem storeGet_gt {store : List Record} {count : Nat} {a : Key} {r : Record}
    (h : r ∈ storeGet store count (some a) none) : KLT a r.key := by
  unfold storeGet at h
  have h2 := List.mem_of_mem_take h
  show keyLt a r.key = true
  exact (List.mem_filter.mp h2).2

theorem storeGet_pairwise {store : List Record} (count : Nat) (sa sk : Option Key)
    (hs : List.Pairwise KLT (store.map (·.key))) :
    List.Pairwise KLT ((storeGet store count sa sk).map (·.key)) :=
  List.Pairwise.sublist ((storeGet_sublist store count sa sk).map (·.key)) hs

theorem fetchLoop_subset {store : List Record} :
    ∀ (fuel rem : Nat) (sa : Option Key) (r : Record),
      r ∈ fetchLoop store none fuel rem sa → r ∈ store := by
  intro fuel
  induction fuel with
  | zero => intro rem sa r h; cases h
  | succ f ih =>
    intro rem sa r h
    cases rem with
    | zero => cases h
    | succ rem2 =>
      cases hl : (storeGet store (rem2 + 1) sa none).getLast? with
      | none => simp [fetchLoop, hl] at h
      | some lastR =>
        simp only [fetchLoop, hl] at h
        rcases List.mem_append.mp h with h1 | h1
        · exact (storeGet_sublist store (rem2 + 1) sa none).subset h1
        · exact ih _ _ _ h1

theorem fetchLoop_gt {store : List Record} :
    ∀ (fuel rem : Nat) (a : Key) (r : Record),
      r ∈ fetchLoop store none fuel rem (some a) → KLT a r.key := by
  intro fuel
  induction fuel with
  | zero => intro rem a r h; cases h
  | succ f ih =>
    intro rem a r h
    cases rem with
    | zero => cases h
    | succ rem2 =>
      cases hl : (storeGet store (rem2 + 1) (some a) none).getLast? with
      | none => simp [fetchLoop, hl] at h
      | some lastR =>
        simp only [fetchLoop, hl] at h
        rcases List.mem_append.mp h with h1 | h1
        · exact storeGet_gt h1
        · have h2 := ih _ _ _ h1
          have h3 : KLT a lastR.key := storeGet_gt (List.mem_of_mem_getLast? hl)
          exact keyLt_trans h3 h2

theorem fetchLoop_pairwise {store : List Record}
    (hs : List.Pairwise KLT (store.map (·.key))) :
    ∀ (fuel rem : Nat) (sa : Option Key),
      List.Pairwise KLT ((fetchLoop store none fuel rem sa).map (·.key)) := by
  intro fuel
  induction fuel with
  | zero => intro rem sa; simp [fetchLoop]
  | succ f ih =>
    intro rem sa
    cases rem with
    | zero => simp [fetchLoop]
    | succ rem2 =>
      cases hl : (storeGet store (rem2 + 1) sa none).getLast? with
      | none => simp [fetchLoop, hl]
      | some lastR =>
        simp only [fetchLoop, hl, List.map_append]
        rw [List.pairwise_append]
        refine ⟨storeGet_pairwise _ _ _ hs, ih _ _, ?_⟩
        intro x hx y hy
        rcases List.mem_map.mp hx with ⟨rx, hrx, rfl⟩
        rcases List.mem_map.mp hy with ⟨ry, hry, rfl⟩
        have h2 : KLT lastR.key ry.key := fetchLoop_gt _ _ _ _ hry
        have h3 : keyLt lastR.key rx.key = false := by
          have hpw : List.Pairwise KLT ((storeGet store (rem2 + 1) sa none).map (·.key)) :=
            storeGet_pairwise _ _ _ hs
          have hml : ((storeGet store (rem2 + 1) sa none).map (·.key)).getLast? =
              some lastR.key := by
            rw [List.getLast?_map, hl]
            rfl
          exact pairwise_le_getLast hpw hml (List.mem_map_of_mem _ hrx)
        exact keyLt_of_le_of_lt h3 h2

theorem fetchAll_subset {store : List Record} {count : Nat} {sa : Option Key} {r : Record}
    (h : r ∈ fetchAll store count sa none) : r ∈ store :=
  fetchLoop_subset _ _ _ _ h

theorem fetchAll_gt {store : List Record} {count : Nat} {a : Key} {r : Record}
    (h : r ∈ fetchAll store count (some a) none) : KLT a r.key :=
  fetchLoop_gt _ _ _ _ h

theorem fetchAll_pairwise {store : List Record} (count : Nat) (sa : Option Key)
    (hs : List.Pairwise KLT (store.map (·.key))) :
    List.Pairwise KLT ((fetchAll store count sa none).map (·.key)) :=
  fetchLoop_pairwise hs _ _ _

theorem findCut_sublist {s : Key} {c suf : List (Key × Record)}
    (h : findCut s c = some suf) : suf.Sublist c := by
  induction c with
  | nil => simp [findCut] at h
  | cons x xs ih =>
    by_cases hx : keyLt s x.1 = true
    · simp [findCut, hx] at h
      subst h
      exact List.Sublist.refl _
    · have hx2 : keyLt s x.1 = false := by
        cases hv : keyLt s x.1
        · rfl
        · exact absurd hv hx
      simp [findCut, hx2] at h
      exact (ih h).trans (List.sublist_cons_self x xs)

theorem trimCache_sublist (c : List (Key × Record)) (s : Key) :
    (trimCache c s).Sublist c := by
  unfold trimCache
  cases hfc : findCut s c with
  | none => exact List.dropWhile_sublist _
  | some suf => exact (List.dropWhile_sublist _).trans (findCut_sublist hfc)

theorem trimCache_mem_ge {c : List (Key × Record)} {s : Key} {e : Key × Record}
    (hp : List.Pairwise KLT (c.map (·.1))) (he : e ∈ trimCache c s) :
    KLT s e.1 ∨ e.1 = s := by
  induction c with
  | nil => simp [trimCache, findCut] at he
  | cons x xs ih =>
    have hptail : List.Pairwise KLT (xs.map (·.1)) := (List.pairwise_cons.mp hp).2
    by_cases hx : keyLt s x.1 = true
    · have hxs : keyLt x.1 s = false := keyLt_asymm hx
      simp only [trimCache, findCut, hx, if_true] at he
      rw [List.dropWhile_cons] at he
      rw [hxs] at he
      simp at he
      rcases he with rfl | he2
      · exact Or.inl hx
      · have : KLT x.1 e.1 :=
          List.rel_of_pairwise_cons hp (List.mem_map_of_mem (·.1) he2)
        exact Or.inl (keyLt_trans hx this)
    · have hx2 : keyLt s x.1 = false := by
        cases hv : keyLt s x.1
        · rfl
        · exact absurd hv hx
      cases hfc : findCut s xs with
      | some suf =>
        have heq : trimCache (x :: xs) s = trimCache xs s := by
          simp [trimCache, findCut, hx2, hfc]
        rw [heq] at he
        exact ih hptail he
      | none =>
        by_cases hpx : keyLt x.1 s = true
        · have heq : trimCache (x :: xs) s = trimCache xs s := by
            simp [trimCache, findCut, hx2, hfc, List.dropWhile_cons, hpx]
          rw [heq] at he
          exact ih hptail he
        · have hpx2 : keyLt x.1 s = false := by
            cases hv : keyLt x.1 s
            · rfl
            · exact absurd hv hpx
          have hxeq : x.1 = s := keyLt_conn hpx2 hx2
          have heq : trimCache (x :: xs) s = x :: xs := by
            simp [trimCache, findCut, hx2, hfc, List.dropWhile_cons, hpx2]
          rw [heq] at he
          rcases List.mem_cons.mp he with rfl | he2
          · exact Or.inr hxeq
          · have : KLT x.1 e.1 :=
              List.rel_of_pairwise_cons hp (List.mem_map_of_mem (·.1) he2)
            rw [hxeq] at this
            exact Or.inl this

theorem cacheWF_pairwise {c : CachedCol} (h : cacheWF c = true) :
    List.Pairwise KLT (c.cache.map (·.1)) :=
  pairwise_of_sortedKeys (Bool.and_eq_true _ _ |>.mp h).1

theorem cacheWF_mem {c : CachedCol} (h : cacheWF c = true) {e : Key × Record}
    (he : e ∈ c.cache) : e.1 = e.2.key ∧ e.1 ∈ allStoreKeys c.stores := by
  unfold cacheWF at h
  have h2 := (Bool.and_eq_true _ _ |>.mp h).2
  have h3 := List.all_eq_true.mp h2 e he
  obtain ⟨h4, h5⟩ := Bool.and_eq_true _ _ |>.mp h3
  refine ⟨eq_of_beq h4, ?_⟩
  rcases List.any_eq_true.mp h5 with ⟨r, hr, hkr⟩
  have hrk : r.key = e.1 := eq_of_beq hkr
  rw [← hrk]
  exact List.mem_map_of_mem (·.key) hr

theorem storesWF_store {S : List (List Record)} (h : storesWF S = true) {s : List Record}
    (hs : s ∈ S) :
    List.Pairwise KLT (s.map (·.key)) ∧ ∀ r ∈ s, tildeFree r.key = true := by
  unfold storesWF at h
  have h1 := (Bool.and_eq_true _ _ |>.mp h).1
  have h2 := List.all_eq_true.mp h1 s hs
  unfold storeWF at h2
  obtain ⟨h3, h4⟩ := Bool.and_eq_true _ _ |>.mp h2
  exact ⟨pairwise_of_sortedKeys h3, fun r hr => List.all_eq_true.mp h4 r hr⟩

theorem storesWF_tail {s : List Record} {rest : List (List Record)}
    (h : storesWF (s :: rest) = true) : storesWF rest = true := by
  unfold storesWF at h ⊢
  obtain ⟨h1, h2⟩ := Bool.and_eq_true _ _ |>.mp h
  unfold storesDisjoint at h2
  obtain ⟨_, h4⟩ := Bool.and_eq_true _ _ |>.mp h2
  rw [List.all_cons] at h1
  obtain ⟨_, h5⟩ := Bool.and_eq_true _ _ |>.mp h1
  rw [h5, h4]
  rfl

theorem storesWF_disjoint_head {s : List Record} {rest : List (List Record)}
    (h : storesWF (s :: rest) = true) {t : List Record} (ht : t ∈ rest) {r : Record}
    (hr : r ∈ s) {q : Record} (hq : q ∈ t) : q.key ≠ r.key := by
  unfold storesWF at h
  have h2 := (Bool.and_eq_true _ _ |>.mp h).2
  unfold storesDisjoint at h2
  have h3 := (Bool.and_eq_true _ _ |>.mp h2).1
  have h4 := List.all_eq_true.mp h3 t ht
  have h5 := List.all_eq_true.mp h4 r hr
  rw [Bool.not_eq_eq_eq_not, Bool.not_true] at h5
  intro hne
  have h6 : t.any (fun q => q.key == r.key) = true :=
    List.any_eq_true.mpr ⟨q, hq, beq_iff_eq.mpr hne⟩
  rw [h6] at h5
  exact Bool.noConfusion h5

theorem freshRecords_mem {S : List (List Record)} {count len : Nat} {fsa sk : Option Key}
    {r : Record} (h : r ∈ freshRecords S count len fsa sk) :
    ∃ s ∈ S, r ∈ fetchAll s count fsa sk := by
  unfold freshRecords at h
  by_cases hc : len < count * S.length
  · rw [if_pos hc] at h
    rcases List.mem_flatten.mp h with ⟨l, hl, hrl⟩
    rcases List.mem_map.mp hl with ⟨s, hs, rfl⟩
    exact ⟨s, hs, hrl⟩
  · rw [if_neg hc] at h
    cases h

theorem freshRecords_allmem {S : List (List Record)} {count len : Nat} {fsa : Option Key}
    {r : Record} (h : r ∈ freshRecords S count len fsa none) : r ∈ allRecords S := by
  rcases freshRecords_mem h with ⟨s, hs, hr⟩
  exact List.mem_flatten.mpr ⟨s, hs, fetchAll_subset hr⟩

theorem freshRecords_gt {S : List (List Record)} {count len : Nat} {f : Key}
    {r : Record} (h : r ∈ freshRecords S count len (some f) none) : KLT f r.key := by
  rcases freshRecords_mem h with ⟨s, _, hr⟩
  exact fetchAll_gt hr

theorem flattenFetch_nodup {S : List (List Record)} (hWF : storesWF S = true)
    (count : Nat) (fsa : Option Key) :
    (((S.map (fun st => fetchAll st count fsa none)).flatten).map (·.key)).Nodup := by
  induction S with
  | nil => simp
  | cons s rest ih =>
    simp only [List.map_cons, List.flatten_cons, List.map_append]
    rw [List.nodup_append]
    refine ⟨?_, ih (storesWF_tail hWF), ?_⟩
    · exact nodup_of_pairwise_klt
        (fetchAll_pairwise count fsa (storesWF_store hWF (List.mem_cons_self s rest)).1)
    · intro k hk1 hk2
      rcases List.mem_map.mp hk1 with ⟨r, hr, rfl⟩
      rcases List.mem_map.mp hk2 with ⟨q, hq, hqk⟩
      rcases List.mem_flatten.mp hq with ⟨l, hl, hql⟩
      rcases List.mem_map.mp hl with ⟨t, ht, rfl⟩
      exact storesWF_disjoint_head hWF ht (fetchAll_subset hr) (fetchAll_subset hql) hqk

theorem freshRecords_nodup_keys {S : List (List Record)} (hWF : storesWF S = true)
    (count len : Nat) (fsa : Option Key) :
    ((freshRecords S count len fsa none).map (·.key)).Nodup := by
  unfold freshRecords
  by_cases hc : len < count * S.length
  · rw [if_pos hc]
    exact flattenFetch_nodup hWF count fsa
  · rw [if_neg hc]
    exact List.nodup_nil

theorem sorted_pairs_klt {l : List (Key × Record)} (hs : List.Pairwise pairLe l)
    (hnd : (l.map (·.1)).Nodup) : List.Pairwise KLT (l.map (·.1)) := by
  rw [List.pairwise_map]
  have hnd2 : List.Pairwise (fun a b : Key × Record => a.1 ≠ b.1) l :=
    List.pairwise_map.mp hnd
  have hcomb := List.Pairwise.and hs hnd2
  refine hcomb.imp ?_
  intro a b hab
  obtain ⟨h1, h2⟩ := hab
  unfold pairLe at h1
  rcases keyLt_tri a.1 b.1 with h | h | h
  · exact h
  · exact absurd h h2
  · rw [h] at h1
    exact Bool.noConfusion h1

theorem cachedPrepare_cases (c : CachedCol) (count : Nat) (sa sk : Option Key) :
    cachedPrepare c count sa sk =
      if (trimmedCache c sa).isEmpty then
        List.insertionSort pairLe
          ((freshRecords c.stores count (trimmedCache c sa).length
            (fetchStartAfter (trimmedCache c sa) sa) sk).map (fun r => (r.key, r)))
      else
        trimmedCache c sa ++
          List.insertionSort pairLe
            ((freshRecords c.stores count (trimmedCache c sa).length
              (fetchStartAfter (trimmedCache c sa) sa) sk).map (fun r => (r.key, r))) := rfl

theorem trimmedCache_subset {c : CachedCol} {sa : Option Key} {e : Key × Record}
    (h : e ∈ trimmedCache c sa) : e ∈ c.cache := by
  unfold trimmedCache at h
  cases sa with
  | none => cases h
  | some s => exact (trimCache_sublist c.cache s).subset h

theorem trimmedCache_pairwise {c : CachedCol} (hC : cacheWF c = true) (sa : Option Key) :
    List.Pairwise KLT ((trimmedCache c sa).map (·.1)) := by
  unfold trimmedCache
  cases sa with
  | none => exact List.Pairwise.nil
  | some s =>
    exact List.Pairwise.sublist ((trimCache_sublist c.cache s).map (·.1)) (cacheWF_pairwise hC)

theorem cachedPrepare_spec {c : CachedCol} {count : Nat} {sa : Option Key}
    (hS : storesWF c.stores = true) (hC : cacheWF c = true) :
    List.Pairwise KLT ((cachedPrepare c count sa none).map (·.1)) ∧
    (∀ e ∈ cachedPrepare c count sa none, e.1 = e.2.key ∧ e.1 ∈ allStoreKeys c.stores) ∧
    (∀ s, sa = some s → (∀ e2 ∈ c.cache, ¬ e2.1 = s) →
      ∀ e ∈ cachedPrepare c count sa none, KLT s e.1) := by
  have hpc1 : List.Pairwise KLT ((trimmedCache c sa).map (·.1)) := trimmedCache_pairwise hC sa
  have hfsmem : ∀ e ∈ List.insertionSort pairLe
      ((freshRecords c.stores count (trimmedCache c sa).length
        (fetchStartAfter (trimmedCache c sa) sa) none).map (fun r => (r.key, r))),
      ∃ r ∈ freshRecords c.stores count (trimmedCache c sa).length
        (fetchStartAfter (trimmedCache c sa) sa) none, e = (r.key, r) := by
    intro e he
    have hperm := List.perm_insertionSort pairLe
      ((freshRecords c.stores count (trimmedCache c sa).length
        (fetchStartAfter (trimmedCache c sa) sa) none).map (fun r => (r.key, r)))
    have := hperm.mem_iff.mp he
    rcases List.mem_map.mp this with ⟨r, hr, rfl⟩
    exact ⟨r, hr, rfl⟩
  have hfspair : List.Pairwise KLT ((List.insertionSort pairLe
      ((freshRecords c.stores count (trimmedCache c sa).length
        (fetchStartAfter (trimmedCache c sa) sa) none).map (fun r => (r.key, r)))).map (·.1)) := by
    have hsorted : List.Pairwise pairLe (List.insertionSort pairLe
        ((freshRecords c.stores count (trimmedCache c sa).length
          (fetchStartAfter (trimmedCache c sa) sa) none).map (fun r => (r.key, r)))) :=
      List.sorted_insertionSort pairLe _
    have hperm := List.perm_insertionSort pairLe
      ((freshRecords c.stores count (trimmedCache c sa).length
        (fetchStartAfter (trimmedCache c sa) sa) none).map (fun r => (r.key, r)))
    have hmapeq : ((freshRecords c.stores count (trimmedCache c sa).length
        (fetchStartAfter (trimmedCache c sa) sa) none).map (fun r => (r.key, r))).map (·.1) =
        (freshRecords c.stores count (trimmedCache c sa).length
          (fetchStartAfter (trimmedCache c sa) sa) none).map (·.key) := by
      rw [List.map_map]
      rfl
    have hnd : (((List.insertionSort pairLe
        ((freshRecords c.stores count (trimmedCache c sa).length
          (fetchStartAfter (trimmedCache c sa) sa) none).map (fun r => (r.key, r))))).map
          (·.1)).Nodup := by
      have hpm := hperm.map (·.1)
      rw [hmapeq] at hpm
      exact (hpm.nodup_iff).mpr (freshRecords_nodup_keys hS count _ _)
    exact sorted_pairs_klt hsorted hnd
  have hfsgt : ∀ (f : Key), fetchStartAfter (trimmedCache c sa) sa = some f →
      ∀ e ∈ List.insertionSort pairLe
        ((freshRecords c.stores count (trimmedCache c sa).length
          (fetchStartAfter (trimmedCache c sa) sa) none).map (fun r => (r.key, r))),
        KLT f e.1 := by
    intro f hf e he
    rcases hfsmem e he with ⟨r, hr, rfl⟩
    rw [hf] at hr
    exact freshRecords_gt hr
  have hcross : ∀ x ∈ trimmedCache c sa, ∀ y ∈ List.insertionSort pairLe
      ((freshRecords c.stores count (trimmedCache c sa).length
        (fetchStartAfter (trimmedCache c sa) sa) none).map (fun r => (r.key, r))),
      KLT x.1 y.1 := by
    intro x hx y hy
    have hne : trimmedCache c sa ≠ [] := by
      intro h0
      rw [h0] at hx
      cases hx
    cases hl : (trimmedCache c sa).getLast? with
    | none =>
      rw [List.getLast?_eq_none_iff] at hl
      exact absurd hl hne
    | some e0 =>
      have hxle : keyLt e0.1 x.1 = false := by
        have hml : ((trimmedCache c sa).map (·.1)).getLast? = some e0.1 := by
          rw [List.getLast?_map, hl]
          rfl
        exact pairwise_le_getLast hpc1 hml (List.mem_map_of_mem (·.1) hx)
      cases hsa : sa with
      | none =>
        have : trimmedCache c sa = [] := by
          rw [hsa]
          rfl
        exact absurd this hne
      | some s =>
        have hfsa : fetchStartAfter (trimmedCache c sa) sa = some (keyMax s e0.1) := by
          unfold fetchStartAfter
          rw [hl, hsa]
        have hgt := hfsgt (keyMax s e0.1) hfsa y hy
        exact keyLt_of_le_of_lt hxle (keyLt_keyMax_right hgt)
  rw [cachedPrepare_cases]
  by_cases hE : (trimmedCache c sa).isEmpty = true
  · rw [if_pos hE]
    refine ⟨hfspair, ?_, ?_⟩
    · intro e he
      rcases hfsmem e he with ⟨r, hr, rfl⟩
      exact ⟨rfl, List.mem_map_of_mem (·.key) (freshRecords_allmem hr)⟩
    · intro s hsa _ e he
      have hc1nil : trimmedCache c sa = [] := List.isEmpty_iff.mp hE
      have hfsa : fetchStartAfter (trimmedCache c sa) sa = some s := by
        unfold fetchStartAfter
        rw [hc1nil, hsa]
        rfl
      exact hfsgt s hfsa e he
  · rw [if_neg hE]
    refine ⟨?_, ?_, ?_⟩
    · rw [List.map_append, List.pairwise_append]
      refine ⟨hpc1, hfspair, ?_⟩
      intro a ha b hb
      rcases List.mem_map.mp ha with ⟨x, hx, rfl⟩
      rcases List.mem_map.mp hb with ⟨y, hy, rfl⟩
      exact hcross x hx y hy
    · intro e he
      rcases List.mem_append.mp he with h1 | h1
      · exact cacheWF_mem hC (trimmedCache_subset h1)
      · rcases hfsmem e h1 with ⟨r, hr, rfl⟩
        exact ⟨rfl, List.mem_map_of_mem (·.key) (freshRecords_allmem hr)⟩
    · intro s hsa hno e he
      rcases List.mem_append.mp he with h1 | h1
      · have h2 : e ∈ trimCache c.cache s := by
          have : trimmedCache c sa = trimCache c.cache s := by
            rw [hsa]
            rfl
          rw [← this]
          exact h1
        have hpw : List.Pairwise KLT (c.cache.map (·.1)) := cacheWF_pairwise hC
        rcases trimCache_mem_ge hpw h2 with h3 | h3
        · exact h3
        · exact absurd h3 (hno e (trimmedCache_subset h1))
      · cases hl : (trimmedCache c sa).getLast? with
        | none =>
          rw [List.getLast?_eq_none_iff] at hl
          rw [hl] at hE
          simp at hE
        | some e0 =>
          have hfsa : fetchStartAfter (trimmedCache c sa) sa = some (keyMax s e0.1) := by
            unfold fetchStartAfter
            rw [hl, hsa]
          have hgt := hfsgt (keyMax s e0.1) hfsa e h1
          exact keyLt_keyMax_left hgt

theorem mergeSecondary_key (r : Record) (e : Option SecEntry) :
    (mergeSecondary r e).key = r.key := by
  cases e with
  | none => rfl
  | some x =>
    simp only [mergeSecondary]
    split
    · rfl
    · rfl

theorem tilde_ne_sentinel {k : Key} (h : tildeFree k = true) (p : Key) :
    k ≠ p ++ [limitKeyChar] := by
  intro he
  subst he
  have := List.all_eq_true.mp h limitKeyChar (by simp)
  simp at this

theorem secRefresh_col (st1 : ScannerState) (k : Key) (b : Bool) (lsk : Option Key)
    (sm : List (Key × SecEntry)) : (secRefresh st1 k b lsk sm).2.2.col = st1.col := by
  cases b <;> simp [secRefresh, getSecondaryData]

theorem secRefresh_stopbefore (st1 : ScannerState) (k : Key) (b : Bool) (lsk : Option Key)
    (sm : List (Key × SecEntry)) :
    (secRefresh st1 k b lsk sm).2.2.stopbefore = st1.stopbefore := by
  cases b <;> simp [secRefresh, getSecondaryData]

theorem secRefresh_excludes (st1 : ScannerState) (k : Key) (b : Bool) (lsk : Option Key)
    (sm : List (Key × SecEntry)) :
    (secRefresh st1 k b lsk sm).2.2.excludePrefixes = st1.excludePrefixes := by
  cases b <;> simp [secRefresh, getSecondaryData]

theorem secRefresh_endts (st1 : ScannerState) (k : Key) (b : Bool) (lsk : Option Key)
    (sm : List (Key × SecEntry)) : (secRefresh st1 k b lsk sm).2.2.endts = st1.endts := by
  cases b <;> simp [secRefresh, getSecondaryData]

theorem secRefresh_batchsize (st1 : ScannerState) (k : Key) (b : Bool) (lsk : Option Key)
    (sm : List (Key × SecEntry)) :
    (secRefresh st1 k b lsk sm).2.2.batchsize = st1.batchsize := by
  cases b <;> simp [secRefresh, getSecondaryData]

theorem secRefresh_maxNextRecords (st1 : ScannerState) (k : Key) (b : Bool) (lsk : Option Key)
    (sm : List (Key × SecEntry)) :
    (secRefresh st1 k b lsk sm).2.2.maxNextRecords = st1.maxNextRecords := by
  cases b <;> simp [secRefresh, getSecondaryData]

theorem secRefresh_totalcount (st1 : ScannerState) (k : Key) (b : Bool) (lsk : Option Key)
    (sm : List (Key × SecEntry)) :
    (secRefresh st1 k b lsk sm).2.2.totalcount = st1.totalcount := by
  cases b <;> simp [secRefresh, getSecondaryData]

theorem secRefresh_start (st1 : ScannerState) (k : Key) (b : Bool) (lsk : Option Key)
    (sm : List (Key × SecEntry)) : (secRefresh st1 k b lsk sm).2.2.start = st1.start := by
  cases b <;> simp [secRefresh, getSecondaryData]

theorem secRefresh_enabled (st1 : ScannerState) (k : Key) (b : Bool) (lsk : Option Key)
    (sm : List (Key × SecEntry)) : (secRefresh st1 k b lsk sm).2.2.enabled = st1.enabled := by
  cases b <;> simp [secRefresh, getSecondaryData]

theorem secRefresh_scannedCount (st1 : ScannerState) (k : Key) (b : Bool) (lsk : Option Key)
    (sm : List (Key × SecEntry)) :
    (secRefresh st1 k b lsk sm).2.2.scannedCount = st1.scannedCount := by
  cases b <;> simp [secRefresh, getSecondaryData]

theorem secRefresh_startafter (st1 : ScannerState) (k : Key) (b : Bool) (lsk : Option Key)
    (sm : List (Key × SecEntry)) :
    (secRefresh st1 k b lsk sm).2.2.startafter = st1.startafter := by
  cases b <;> simp [secRefresh, getSecondaryData]

theorem secRefresh_keyReq (st1 : ScannerState) (k : Key) (b : Bool) (lsk : Option Key)
    (sm : List (Key × SecEntry)) : (secRefresh st1 k b lsk sm).2.2.keyReq = st1.keyReq := by
  cases b <;> simp [secRefresh, getSecondaryData]

theorem secRefresh_tsReq (st1 : ScannerState) (k : Key) (b : Bool) (lsk : Option Key)
    (sm : List (Key × SecEntry)) : (secRefresh st1 k b lsk sm).2.2.tsReq = st1.tsReq := by
  cases b <;> simp [secRefresh, getSecondaryData]

theorem processPage_col : ∀ (page : List Record) (st : ScannerState) (bc : Nat)
    (lsk : Option Key) (sm : List (Key × SecEntry)),
    (processPage st bc lsk sm page).st.col = st.col := by
  intro page
  induction page with
  | nil => intro st bc lsk sm; rfl
  | cons r rs ih =>
    intro st bc lsk sm
    by_cases hstop : stopMatch st r = true
    · simp [processPage, hstop]
    · have hstop2 : stopMatch st r = false := by
        cases hv : stopMatch st r
        · rfl
        · exact absurd hv hstop
      cases hf : st.excludePrefixes.find? (fun e => e.isPrefixOf r.key) with
      | some e => simp [processPage, hstop2, hf]
      | none =>
        simp only [processPage, hstop2, hf, Bool.false_eq_true, if_false]
        split
        · simp only
          rw [ih]
          rw [secRefresh_col]
        · simp only
          rw [ih]
          rw [secRefresh_col]

theorem processPage_stopbefore : ∀ (page : List Record) (st : ScannerState) (bc : Nat)
    (lsk : Option Key) (sm : List (Key × SecEntry)),
    (processPage st bc lsk sm page).st.stopbefore = st.stopbefore := by
  intro page
  induction page with
  | nil => intro st bc lsk sm; rfl
  | cons r rs ih =>
    intro st bc lsk sm
    by_cases hstop : stopMatch st r = true
    · simp [processPage, hstop]
    · have hstop2 : stopMatch st r = false := by
        cases hv : stopMatch st r
        · rfl
        · exact absurd hv hstop
      cases hf : st.excludePrefixes.find? (fun e => e.isPrefixOf r.key) with
      | some e => simp [processPage, hstop2, hf]
      | none =>
        simp only [processPage, hstop2, hf, Bool.false_eq_true, if_false]
        split
        · simp only
          rw [ih]
          rw [secRefresh_stopbefore]
        · simp only
          rw [ih]
          rw [secRefresh_stopbefore]

theorem processPage_excludes : ∀ (page : List Record) (st : ScannerState) (bc : Nat)
    (lsk : Option Key) (sm : List (Key × SecEntry)),
    (processPage st bc lsk sm page).st.excludePrefixes = st.excludePrefixes := by
  intro page
  induction page with
  | nil => intro st bc lsk sm; rfl
  | cons r rs ih =>
    intro st bc lsk sm
    by_cases hstop : stopMatch st r = true
    · simp [processPage, hstop]
    · have hstop2 : stopMatch st r = false := by
        cases hv : stopMatch st r
        · rfl
        · exact absurd hv hstop
      cases hf : st.excludePrefixes.find? (fun e => e.isPrefixOf r.key) with
      | some e => simp [processPage, hstop2, hf]
      | none =>
        simp only [processPage, hstop2, hf, Bool.false_eq_true, if_false]
        split
        · simp only
          rw [ih]
          rw [secRefresh_excludes]
        · simp only
          rw [ih]
          rw [secRefresh_excludes]

theorem processPage_endts : ∀ (page : List Record) (st : ScannerState) (bc : Nat)
    (lsk : Option Key) (sm : List (Key × SecEntry)),
    (processPage st bc lsk sm page).st.endts = st.endts := by
  intro page
  induction page with
  | nil => intro st bc lsk sm; rfl
  | cons r rs ih =>
    intro st bc lsk sm
    by_cases hstop : stopMatch st r = true
    · simp [processPage, hstop]
    · have hstop2 : stopMatch st r = false := by
        cases hv : stopMatch st r
        · rfl
        · exact absurd hv hstop
      cases hf : st.excludePrefixes.find? (fun e => e.isPrefixOf r.key) with
      | some e => simp [processPage, hstop2, hf]
      | none =>
        simp only [processPage, hstop2, hf, Bool.false_eq_true, if_false]
        split
        · simp only
          rw [ih]
          rw [secRefresh_endts]
        · simp only
          rw [ih]
          rw [secRefresh_endts]

theorem processPage_batchsize : ∀ (page : List Record) (st : ScannerState) (bc : Nat)
    (lsk : Option Key) (sm : List (Key × SecEntry)),
    (processPage st bc lsk sm page).st.batchsize = st.batchsize := by
  intro page
  induction page with
  | nil => intro st bc lsk sm; rfl
  | cons r rs ih =>
    intro st bc lsk sm
    by_cases hstop : stopMatch st r = true
    · simp [processPage, hstop]
    · have hstop2 : stopMatch st r = false := by
        cases hv : stopMatch st r
        · rfl
        · exact absurd hv hstop
      cases hf : st.excludePrefixes.find? (fun e => e.isPrefixOf r.key) with
      | some e => simp [processPage, hstop2, hf]
      | none =>
        simp only [processPage, hstop2, hf, Bool.false_eq_true, if_false]
        split
        · simp only
          rw [ih]
          rw [secRefresh_batchsize]
        · simp only
          rw [ih]
          rw [secRefresh_batchsize]

theorem processPage_maxNextRecords : ∀ (page : List Record) (st : ScannerState) (bc : Nat)
    (lsk : Option Key) (sm : List (Key × SecEntry)),
    (processPage st bc lsk sm page).st.maxNextRecords = st.maxNextRecords := by
  intro page
  induction page with
  | nil => intro st bc lsk sm; rfl
  | cons r rs ih =>
    intro st bc lsk sm
    by_cases hstop : stopMatch st r = true
    · simp [processPage, hstop]
    · have hstop2 : stopMatch st r = false := by
        cases hv : stopMatch st r
        · rfl
        · exact absurd hv hstop
      cases hf : st.excludePrefixes.find? (fun e => e.isPrefixOf r.key) with
      | some e => simp [processPage, hstop2, hf]
      | none =>
        simp only [processPage, hstop2, hf, Bool.false_eq_true, if_false]
        split
        · simp only
          rw [ih]
          rw [secRefresh_maxNextRecords]
        · simp only
          rw [ih]
          rw [secRefresh_maxNextRecords]

theorem processPage_totalcount : ∀ (page : List Record) (st : ScannerState) (bc : Nat)
    (lsk : Option Key) (sm : List (Key × SecEntry)),
    (processPage st bc lsk sm page).st.totalcount = st.totalcount := by
  intro page
  induction page with
  | nil => intro st bc lsk sm; rfl
  | cons r rs ih =>
    intro st bc lsk sm
    by_cases hstop : stopMatch st r = true
    · simp [processPage, hstop]
    · have hstop2 : stopMatch st r = false := by
        cases hv : stopMatch st r
        · rfl
        · exact absurd hv hstop
      cases hf : st.excludePrefixes.find? (fun e => e.isPrefixOf r.key) with
      | some e => simp [processPage, hstop2, hf]
      | none =>
        simp only [processPage, hstop2, hf, Bool.false_eq_true, if_false]
        split
        · simp only
          rw [ih]
          rw [secRefresh_totalcount]
        · simp only
          rw [ih]
          rw [secRefresh_totalcount]

theorem processPage_start : ∀ (page : List Record) (st : ScannerState) (bc : Nat)
    (lsk : Option Key) (sm : List (Key × SecEntry)),
    (processPage st bc lsk sm page).st.start = st.start := by
  intro page
  induction page with
  | nil => intro st bc lsk sm; rfl
  | cons r rs ih =>
    intro st bc lsk sm
    by_cases hstop : stopMatch st r = true
    · simp [processPage, hstop]
    · have hstop2 : stopMatch st r = false := by
        cases hv : stopMatch st r
        · rfl
        · exact absurd hv hstop
      cases hf : st.excludePrefixes.find? (fun e => e.isPrefixOf r.key) with
      | some e => simp [processPage, hstop2, hf]
      | none =>
        simp only [processPage, hstop2, hf, Bool.false_eq_true, if_false]
        split
        · simp only
          rw [ih]
          rw [secRefresh_start]
        · simp only
          rw [ih]
          rw [secRefresh_start]
theorem processPage_cons_normal {st : ScannerState} {r : Record} {rs : List Record}
    (bc : Nat) (lsk : Option Key) (sm : List (Key × SecEntry))
    (hstop : stopMatch st r = false)
    (hf : st.excludePrefixes.find? (fun e => e.isPrefixOf r.key) = none) :
    ∃ (st2 : ScannerState) (bc2 : Nat) (lsk2 : Option Key) (sm2 : List (Key × SecEntry)),
      (processPage st bc lsk sm (r :: rs)).st = (processPage st2 bc2 lsk2 sm2 rs).st ∧
      (processPage st bc lsk sm (r :: rs)).count = (processPage st2 bc2 lsk2 sm2 rs).count + 1 ∧
      (processPage st bc lsk sm (r :: rs)).consumed =
        (processPage st2 bc2 lsk2 sm2 rs).consumed + 1 ∧
      (processPage st bc lsk sm (r :: rs)).jump = (processPage st2 bc2 lsk2 sm2 rs).jump ∧
      (processPage st bc lsk sm (r :: rs)).stopKey = (processPage st2 bc2 lsk2 sm2 rs).stopKey ∧
      (processPage st bc lsk sm (r :: rs)).batchcount =
        (processPage st2 bc2 lsk2 sm2 rs).batchcount ∧
      (processPage st bc lsk sm (r :: rs)).lastSecKey =
        (processPage st2 bc2 lsk2 sm2 rs).lastSecKey ∧
      (processPage st bc lsk sm (r :: rs)).secMap = (processPage st2 bc2 lsk2 sm2 rs).secMap ∧
      st2.startafter = some r.key ∧
      st2.enabled = st.enabled ∧
      st2.excludePrefixes = st.excludePrefixes ∧
      st2.stopbefore = st.stopbefore ∧
      st2.endts = st.endts ∧
      ((processPage st bc lsk sm (r :: rs)).yields = (processPage st2 bc2 lsk2 sm2 rs).yields ∧
        st2.scannedCount = st.scannedCount ∧ bc2 = bc ∨
       ∃ r1, r1.key = r.key ∧
         (processPage st bc lsk sm (r :: rs)).yields =
           r1 :: (processPage st2 bc2 lsk2 sm2 rs).yields ∧
         st2.scannedCount = st.scannedCount + 1 ∧ bc2 = bc - 1) := by
  simp only [processPage, hstop, hf, Bool.false_eq_true, if_false]
  split
  · refine ⟨_, _, _, _, rfl, rfl, rfl, rfl, rfl, rfl, rfl, rfl, ?_, ?_, ?_, ?_, ?_, ?_⟩
    · rw [secRefresh_startafter]
    · rw [secRefresh_enabled]
    · rw [secRefresh_excludes]
    · rw [secRefresh_stopbefore]
    · rw [secRefresh_endts]
    · exact Or.inl ⟨rfl, by rw [secRefresh_scannedCount], rfl⟩
  · refine ⟨_, _, _, _, rfl, rfl, rfl, rfl, rfl, rfl, rfl, rfl, ?_, ?_, ?_, ?_, ?_, ?_⟩
    · rw [secRefresh_startafter]
    · rw [secRefresh_enabled]
    · rw [secRefresh_excludes]
    · rw [secRefresh_stopbefore]
    · rw [secRefresh_endts]
    · refine Or.inr ⟨_, mergeSecondary_key _ _, rfl, ?_, rfl⟩
      simp only [ScannerState.mk.injEq]
      rw [secRefresh_scannedCount]

theorem processPage_scanned : ∀ (page : List Record) (st : ScannerState) (bc : Nat)
    (lsk : Option Key) (sm : List (Key × SecEntry)),
    (processPage st bc lsk sm page).st.scannedCount =
      st.scannedCount + (processPage st bc lsk sm page).yields.length := by
  intro page
  induction page with
  | nil => intro st bc lsk sm; rfl
  | cons r rs ih =>
    intro st bc lsk sm
    by_cases hstop : stopMatch st r = true
    · simp [processPage, hstop]
    · have hstop2 : stopMatch st r = false := by
        cases hv : stopMatch st r
        · rfl
        · exact absurd hv hstop
      cases hf : st.excludePrefixes.find? (fun e => e.isPrefixOf r.key) with
      | some e => simp [processPage, hstop2, hf]
      | none =>
        obtain ⟨st2, bc2, lsk2, sm2, hst, hcount, hcons, hjump, hstopk, hbc, hlsk, hsm,
          hsa2, hen2, hex2, hsb2, hend2, hor⟩ := processPage_cons_normal bc lsk sm hstop2 hf
        rcases hor with ⟨hy, hsc, hbc2⟩ | ⟨r1, hk, hy, hsc, hbc2⟩
        · rw [hst, hy, ih st2 bc2 lsk2 sm2, hsc]
        · rw [hst, hy, ih st2 bc2 lsk2 sm2, hsc]
          simp only [List.length_cons]
          omega

theorem processPage_batchcount : ∀ (page : List Record) (st : ScannerState) (bc : Nat)
    (lsk : Option Key) (sm : List (Key × SecEntry)),
    (processPage st bc lsk sm page).batchcount =
      bc - (processPage st bc lsk sm page).yields.length := by
  intro page
  induction page with
  | nil => intro st bc lsk sm; rfl
  | cons r rs ih =>
    intro st bc lsk sm
    by_cases hstop : stopMatch st r = true
    · simp [processPage, hstop]
    · have hstop2 : stopMatch st r = false := by
        cases hv : stopMatch st r
        · rfl
        · exact absurd hv hstop
      cases hf : st.excludePrefixes.find? (fun e => e.isPrefixOf r.key) with
      | some e => simp [processPage, hstop2, hf]
      | none =>
        obtain ⟨st2, bc2, lsk2, sm2, hst, hcount, hcons, hjump, hstopk, hbc, hlsk, hsm,
          hsa2, hen2, hex2, hsb2, hend2, hor⟩ := processPage_cons_normal bc lsk sm hstop2 hf
        rcases hor with ⟨hy, hsc, hbc2⟩ | ⟨r1, hk, hy, hsc, hbc2⟩
        · rw [hbc, hy, ih st2 bc2 lsk2 sm2, hbc2]
        · rw [hbc, hy, ih st2 bc2 lsk2 sm2, hbc2]
          simp only [List.length_cons]
          omega

theorem processPage_yields_sublist : ∀ (page : List Record) (st : ScannerState) (bc : Nat)
    (lsk : Option Key) (sm : List (Key × SecEntry)),
    ((processPage st bc lsk sm page).yields.map (·.key)).Sublist (page.map (·.key)) := by
  intro page
  induction page with
  | nil => intro st bc lsk sm; simp [processPage]
  | cons r rs ih =>
    intro st bc lsk sm
    by_cases hstop : stopMatch st r = true
    · simp [processPage, hstop]
    · have hstop2 : stopMatch st r = false := by
        cases hv : stopMatch st r
        · rfl
        · exact absurd hv hstop
      cases hf : st.excludePrefixes.find? (fun e => e.isPrefixOf r.key) with
      | some e => simp [processPage, hstop2, hf]
      | none =>
        obtain ⟨st2, bc2, lsk2, sm2, hst, hcount, hcons, hjump, hstopk, hbc, hlsk, hsm,
          hsa2, hen2, hex2, hsb2, hend2, hor⟩ := processPage_cons_normal bc lsk sm hstop2 hf
        rcases hor with ⟨hy, _, _⟩ | ⟨r1, hk, hy, _, _⟩
        · rw [hy]
          simp only [List.map_cons]
          exact (ih st2 bc2 lsk2 sm2).cons r.key
        · rw [hy]
          simp only [List.map_cons, hk]
          exact (ih st2 bc2 lsk2 sm2).cons₂ r.key

theorem processPage_excl : ∀ (page : List Record) (st : ScannerState) (bc : Nat)
    (lsk : Option Key) (sm : List (Key × SecEntry)) (y : Record),
    y ∈ (processPage st bc lsk sm page).yields →
    ∀ p ∈ st.excludePrefixes, p.isPrefixOf y.key = false := by
  intro page
  induction page with
  | nil => intro st bc lsk sm y hy; simp [processPage] at hy
  | cons r rs ih =>
    intro st bc lsk sm y hy
    by_cases hstop : stopMatch st r = true
    · simp [processPage, hstop] at hy
    · have hstop2 : stopMatch st r = false := by
        cases hv : stopMatch st r
        · rfl
        · exact absurd hv hstop
      cases hf : st.excludePrefixes.find? (fun e => e.isPrefixOf r.key) with
      | some e => simp [processPage, hstop2, hf] at hy
      | none =>
        obtain ⟨st2, bc2, lsk2, sm2, hst, hcount, hcons, hjump, hstopk, hbc, hlsk, hsm,
          hsa2, hen2, hex2, hsb2, hend2, hor⟩ := processPage_cons_normal bc lsk sm hstop2 hf
        rcases hor with ⟨hyy, _, _⟩ | ⟨r1, hk, hyy, _, _⟩
        · rw [hyy] at hy
          intro p hp
          exact ih st2 bc2 lsk2 sm2 y hy p (by rw [hex2]; exact hp)
        · rw [hyy] at hy
          rcases List.mem_cons.mp hy with rfl | hy2
          · intro p hp
            rw [hk]
            have := List.find?_eq_none.mp hf p hp
            cases hv : p.isPrefixOf r.key
            · rfl
            · exact absurd hv this
          · intro p hp
            exact ih st2 bc2 lsk2 sm2 y hy2 p (by rw [hex2]; exact hp)

theorem processPage_counts : ∀ (page : List Record) (st : ScannerState) (bc : Nat)
    (lsk : Option Key) (sm : List (Key × SecEntry)),
    (processPage st bc lsk sm page).consumed =
      (processPage st bc lsk sm page).count +
        (match (processPage st bc lsk sm page).stopKey with
         | some _ => 1
         | none => 0) ∧
    (processPage st bc lsk sm page).consumed ≤ page.length ∧
    ((processPage st bc lsk sm page).stopKey = none →
      (processPage st bc lsk sm page).jump = false →
      (processPage st bc lsk sm page).consumed = page.length ∧
      (processPage st bc lsk sm page).count = page.length) ∧
    ((processPage st bc lsk sm page).jump = true → 1 ≤ (processPage st bc lsk sm page).count) := by
  intro page
  induction page with
  | nil =>
    intro st bc lsk sm
    refine ⟨rfl, Nat.le_refl 0, fun _ _ => ⟨rfl, rfl⟩, ?_⟩
    intro h
    simp [processPage] at h
  | cons r rs ih =>
    intro st bc lsk sm
    by_cases hstop : stopMatch st r = true
    · simp [processPage, hstop]
    · have hstop2 : stopMatch st r = false := by
        cases hv : stopMatch st r
        · rfl
        · exact absurd hv hstop
      cases hf : st.excludePrefixes.find? (fun e => e.isPrefixOf r.key) with
      | some e => simp [processPage, hstop2, hf]
      | none =>
        obtain ⟨st2, bc2, lsk2, sm2, hst, hcount, hcons, hjump, hstopk, hbc, hlsk, hsm,
          hsa2, hen2, hex2, hsb2, hend2, hor⟩ := processPage_cons_normal bc lsk sm hstop2 hf
        obtain ⟨i1, i2, i3, i4⟩ := ih st2 bc2 lsk2 sm2
        refine ⟨?_, ?_, ?_, ?_⟩
        · rw [hcons, hcount, hstopk, i1]
          omega
        · rw [hcons]
          simp only [List.length_cons]
          omega
        · intro h1 h2
          rw [hstopk] at h1
          rw [hjump] at h2
          obtain ⟨j1, j2⟩ := i3 h1 h2
          rw [hcons, hcount, j1, j2]
          simp [List.length_cons]
        · intro _
          rw [hcount]
          omega
theorem processPage_cursor : ∀ (page : List Record) (st : ScannerState) (bc : Nat)
    (lsk : Option Key) (sm : List (Key × SecEntry)),
    List.Pairwise KLT (page.map (·.key)) →
    (∀ r ∈ page, tildeFree r.key = true) →
    (∀ s, st.startafter = some s → ∀ r ∈ page, KLT s r.key) →
    (1 ≤ (processPage st bc lsk sm page).count →
      ∃ v, (processPage st bc lsk sm page).st.startafter = some v ∧
        (∀ y ∈ (processPage st bc lsk sm page).yields, keyLt v y.key = false) ∧
        (∀ r0, page.head? = some r0 → keyLt v r0.key = false) ∧
        (∀ s, st.startafter = some s → KLT s v) ∧
        ((∃ rp ∈ page.take (processPage st bc lsk sm page).consumed, v = rp.key) ∨
         (∃ p ∈ st.excludePrefixes, v = p ++ [limitKeyChar]))) ∧
    ((processPage st bc lsk sm page).count = 0 →
      (processPage st bc lsk sm page).st.startafter = st.startafter ∧
      (processPage st bc lsk sm page).yields = [] ∧
      (processPage st bc lsk sm page).jump = false) ∧
    (∀ k, (processPage st bc lsk sm page).stopKey = some k →
      (∃ rq ∈ page, rq.key = k) ∧
      (∀ y ∈ (processPage st bc lsk sm page).yields, KLT y.key k) ∧
      (processPage st bc lsk sm page).st.enabled = false ∧
      (processPage st bc lsk sm page).jump = false) ∧
    ((processPage st bc lsk sm page).stopKey = none →
      (processPage st bc lsk sm page).st.enabled = st.enabled) := by
  intro page
  induction page with
  | nil =>
    intro st bc lsk sm _ _ _
    refine ⟨?_, fun _ => ⟨rfl, rfl, rfl⟩, ?_, fun _ => rfl⟩
    · intro h
      simp [processPage] at h
    · intro k hk
      simp [processPage] at hk
  | cons r rs ih =>
    intro st bc lsk sm hpw htf hgt
    rw [List.map_cons] at hpw
    have hpc := List.pairwise_cons.mp hpw
    have hhead : ∀ r' ∈ rs, KLT r.key r'.key := fun r' h => hpc.1 _ (List.mem_map_of_mem _ h)
    have hrmem : r ∈ r :: rs := List.mem_cons_self r rs
    by_cases hstop : stopMatch st r = true
    · refine ⟨?_, ?_, ?_, ?_⟩
      · intro h
        simp [processPage, hstop] at h
      · intro _
        simp [processPage, hstop]
      · intro k hk
        simp only [processPage, hstop, if_true] at hk
        have hk2 : r.key = k := by
          injection hk
        refine ⟨⟨r, hrmem, hk2⟩, ?_, ?_, ?_⟩
        · intro y hy
          simp [processPage, hstop] at hy
        · simp [processPage, hstop]
        · simp [processPage, hstop]
      · intro hk
        simp [processPage, hstop] at hk
    · have hstop2 : stopMatch st r = false := by
        cases hv : stopMatch st r
        · rfl
        · exact absurd hv hstop
      cases hf : st.excludePrefixes.find? (fun e => e.isPrefixOf r.key) with
      | some e =>
        have hpref : e <+: r.key := by
          have := List.find?_some hf
          exact List.isPrefixOf_iff_prefix.mp this
        have hsen : KLT r.key (e ++ [limitKeyChar]) :=
          keyLt_sentinel hpref (htf r hrmem)
        refine ⟨?_, ?_, ?_, ?_⟩
        · intro _
          simp only [processPage, hstop2, Bool.false_eq_true, if_false, hf]
          refine ⟨e ++ [limitKeyChar], rfl, ?_, ?_, ?_, ?_⟩
          · intro y hy
            cases hy
          · intro r0 h0
            rw [List.head?_cons] at h0
            have h02 : r = r0 := by injection h0
            subst h02
            exact keyLt_asymm hsen
          · intro s hs
            exact keyLt_trans (hgt s hs r hrmem) hsen
          · exact Or.inr ⟨e, List.mem_of_find?_eq_some hf, rfl⟩
        · intro h
          simp [processPage, hstop2, hf] at h
        · intro k hk
          simp [processPage, hstop2, hf] at hk
        · intro _
          simp [processPage, hstop2, hf]
      | none =>
        obtain ⟨st2, bc2, lsk2, sm2, hst, hcount, hcons, hjump, hstopk, hbc, hlsk, hsm,
          hsa2, hen2, hex2, hsb2, hend2, hor⟩ := processPage_cons_normal bc lsk sm hstop2 hf
        have hgt2 : ∀ s', st2.startafter = some s' → ∀ r' ∈ rs, KLT s' r'.key := by
          intro s' hs' r' hr'
          rw [hsa2] at hs'
          have : r.key = s' := by injection hs'
          rw [← this]
          exact hhead r' hr'
        obtain ⟨iha, ihb, ihc, ihd⟩ :=
          ih st2 bc2 lsk2 sm2 hpc.2 (fun r' h => htf r' (List.mem_cons_of_mem r h)) hgt2
        refine ⟨?_, ?_, ?_, ?_⟩
        · intro _
          cases hc : (processPage st2 bc2 lsk2 sm2 rs).count with
          | zero =>
            obtain ⟨hsaeq, hyields2, _⟩ := ihb hc
            refine ⟨r.key, ?_, ?_, ?_, ?_, ?_⟩
            · rw [hst, hsaeq, hsa2]
            · intro y hy
              rcases hor with ⟨hy2, _, _⟩ | ⟨r1, hk1, hy2, _, _⟩
              · rw [hy2, hyields2] at hy
                cases hy
              · rw [hy2, hyields2] at hy
                rcases List.mem_cons.mp hy with rfl | hy3
                · rw [hk1]
                  exact keyLt_irrefl r.key
                · cases hy3
            · intro r0 h0
              rw [List.head?_cons] at h0
              have h02 : r = r0 := by injection h0
              subst h02
              exact keyLt_irrefl r.key
            · intro s hs
              exact hgt s hs r hrmem
            · refine Or.inl ⟨r, ?_, rfl⟩
              rw [hcons]
              simp
          | succ n =>
            obtain ⟨v, hvsa, hvy, _, hvmono, hvsrc⟩ := iha (by omega)
            have hrv : KLT r.key v := hvmono r.key hsa2
            refine ⟨v, ?_, ?_, ?_, ?_, ?_⟩
            · rw [hst, hvsa]
            · intro y hy
              rcases hor with ⟨hy2, _, _⟩ | ⟨r1, hk1, hy2, _, _⟩
              · rw [hy2] at hy
                exact hvy y hy
              · rw [hy2] at hy
                rcases List.mem_cons.mp hy with rfl | hy3
                · rw [hk1]
                  exact keyLt_asymm hrv
                · exact hvy y hy3
            · intro r0 h0
              rw [List.head?_cons] at h0
              have h02 : r = r0 := by injection h0
              subst h02
              exact keyLt_asymm hrv
            · intro s hs
              exact keyLt_trans (hgt s hs r hrmem) hrv
            · rcases hvsrc with ⟨rp, hrp, hrpk⟩ | ⟨p, hp, hpk⟩
              · refine Or.inl ⟨rp, ?_, hrpk⟩
                rw [hcons]
                simp only [List.take_succ_cons]
                exact List.mem_cons_of_mem r hrp
              · refine Or.inr ⟨p, ?_, hpk⟩
                rw [← hex2]
                exact hp
        · intro h
          rw [hcount] at h
          exact absurd h (Nat.succ_ne_zero _)
        · intro k hk
          rw [hstopk] at hk
          obtain ⟨⟨rq, hrq, hrqk⟩, hyk, hen, hj⟩ := ihc k hk
          refine ⟨⟨rq, List.mem_cons_of_mem r hrq, hrqk⟩, ?_, ?_, ?_⟩
          · intro y hy
            rcases hor with ⟨hy2, _, _⟩ | ⟨r1, hk1, hy2, _, _⟩
            · rw [hy2] at hy
              exact hyk y hy
            · rw [hy2] at hy
              rcases List.mem_cons.mp hy with rfl | hy3
              · rw [hk1, ← hrqk]
                exact hhead rq hrq
              · exact hyk y hy3
          · rw [hst]
            exact hen
          · rw [hjump]
            exact hj
        · intro hk
          rw [hstopk] at hk
          rw [hst, ihd hk, hen2]

theorem sortedKeys_of_pairwise {l : List Key} (h : List.Pairwise KLT l) :
    sortedKeys l = true := by
  induction l with
  | nil => rfl
  | cons a t ih =>
    cases t with
    | nil => rfl
    | cons b t2 =>
      have hp := List.pairwise_cons.mp h
      have hab : KLT a b := hp.1 b (List.mem_cons_self b t2)
      simp only [sortedKeys, Bool.and_eq_true]
      exact ⟨hab, ih hp.2⟩

theorem saWF_ne {st : ScannerState} (h : saWF st = true) {s : Key}
    (hs : st.startafter = some s) : ∀ e ∈ st.col.cache, ¬ e.1 = s := by
  unfold saWF at h
  rw [hs] at h
  rw [Bool.not_eq_eq_eq_not, Bool.not_true] at h
  intro e he heq
  have : st.col.cache.any (fun e => e.1 == s) = true :=
    List.any_eq_true.mpr ⟨e, he, beq_iff_eq.mpr heq⟩
  rw [this] at h
  exact Bool.noConfusion h

theorem allKeys_tildeFree {S : List (List Record)} (hS : storesWF S = true) {k : Key}
    (hk : k ∈ allStoreKeys S) : tildeFree k = true := by
  rcases List.mem_map.mp hk with ⟨q, hq, rfl⟩
  rcases List.mem_flatten.mp hq with ⟨s, hs, hqs⟩
  exact (storesWF_store hS hs).2 q hqs

theorem pairwise_take_drop {l : List (Key × Record)} (hp : List.Pairwise KLT (l.map (·.1)))
    (n : Nat) : ∀ x ∈ l.take n, ∀ y ∈ l.drop n, KLT x.1 y.1 := by
  have hsplit := List.take_append_drop n l
  rw [← hsplit, List.map_append, List.pairwise_append] at hp
  intro x hx y hy
  exact hp.2.2 x.1 (List.mem_map_of_mem (·.1) hx) y.1 (List.mem_map_of_mem (·.1) hy)

theorem processPage_yields_le : ∀ (page : List Record) (st : ScannerState) (bc : Nat)
    (lsk : Option Key) (sm : List (Key × SecEntry)),
    (processPage st bc lsk sm page).yields.length +
      (if (processPage st bc lsk sm page).jump = true then 1 else 0) ≤
      (processPage st bc lsk sm page).count := by
  intro page
  induction page with
  | nil => intro st bc lsk sm; simp [processPage]
  | cons r rs ih =>
    intro st bc lsk sm
    by_cases hstop : stopMatch st r = true
    · simp [processPage, hstop]
    · have hstop2 : stopMatch st r = false := by
        cases hv : stopMatch st r
        · rfl
        · exact absurd hv hstop
      cases hf : st.excludePrefixes.find? (fun e => e.isPrefixOf r.key) with
      | some e => simp [processPage, hstop2, hf]
      | none =>
        obtain ⟨st2, bc2, lsk2, sm2, hst, hcount, hcons, hjump, hstopk, hbc, hlsk, hsm,
          hsa2, hen2, hex2, hsb2, hend2, hor⟩ := processPage_cons_normal bc lsk sm hstop2 hf
        have hI := ih st2 bc2 lsk2 sm2
        rcases hor with ⟨hy, _, _⟩ | ⟨r1, _, hy, _, _⟩
        · rw [hy, hcount, hjump]
          omega
        · rw [hy, hcount, hjump]
          simp only [List.length_cons]
          omega
theorem KLT_irrefl {a : Key} (h : KLT a a) : False := by
  unfold KLT at h
  rw [keyLt_irrefl] at h
  exact Bool.noConfusion h

theorem batchStep_spec {st : ScannerState} {bc mnr : Nat} {lsk : Option Key}
    {sm : List (Key × SecEntry)}
    (hS : storesWF st.col.stores = true) (hC : cacheWF st.col = true)
    (hSa : saWF st = true) (hmnr : 1 ≤ mnr) :
    (batchStep st bc mnr lsk sm none).2.col.stores = st.col.stores ∧
    (batchStep st bc mnr lsk sm none).2.stopbefore = st.stopbefore ∧
    (batchStep st bc mnr lsk sm none).2.excludePrefixes = st.excludePrefixes ∧
    (batchStep st bc mnr lsk sm none).2.endts = st.endts ∧
    (batchStep st bc mnr lsk sm none).2.batchsize = st.batchsize ∧
    (batchStep st bc mnr lsk sm none).2.maxNextRecords = st.maxNextRecords ∧
    (batchStep st bc mnr lsk sm none).2.totalcount = st.totalcount ∧
    (batchStep st bc mnr lsk sm none).2.start = st.start ∧
    cacheWF (batchStep st bc mnr lsk sm none).2.col = true ∧
    saWF (batchStep st bc mnr lsk sm none).2 = true ∧
    List.Pairwise KLT ((batchStep st bc mnr lsk sm none).1.yields.map (·.key)) ∧
    (∀ s, st.startafter = some s →
      ∀ y ∈ (batchStep st bc mnr lsk sm none).1.yields, KLT s y.key) ∧
    (1 ≤ (batchStep st bc mnr lsk sm none).1.count →
      ∃ v, (batchStep st bc mnr lsk sm none).2.startafter = some v ∧
        (∀ y ∈ (batchStep st bc mnr lsk sm none).1.yields, keyLt v y.key = false) ∧
        (∀ s, st.startafter = some s → KLT s v) ∧
        remBeyond st.col.stores (batchStep st bc mnr lsk sm none).2.startafter <
          remBeyond st.col.stores st.startafter) ∧
    ((batchStep st bc mnr lsk sm none).1.count = 0 →
      (batchStep st bc mnr lsk sm none).2.startafter = st.startafter ∧
      (batchStep st bc mnr lsk sm none).1.yields = [] ∧
      (batchStep st bc mnr lsk sm none).2.enabled = false) ∧
    (batchStep st bc mnr lsk sm none).1.yields.length ≤ mnr ∧
    (batchStep st bc mnr lsk sm none).1.batchcount =
      bc - (batchStep st bc mnr lsk sm none).1.yields.length ∧
    (batchStep st bc mnr lsk sm none).2.scannedCount =
      st.scannedCount + (batchStep st bc mnr lsk sm none).1.yields.length ∧
    (∀ y ∈ (batchStep st bc mnr lsk sm none).1.yields, ∀ p ∈ st.excludePrefixes,
      p.isPrefixOf y.key = false) ∧
    (∀ k, (batchStep st bc mnr lsk sm none).1.stopKey = some k →
      (∀ y ∈ (batchStep st bc mnr lsk sm none).1.yields, KLT y.key k) ∧
      (batchStep st bc mnr lsk sm none).2.enabled = false ∧
      (∀ s, st.startafter = some s → KLT s k)) ∧
    (st.totalcount ≠ 0 → st.scannedCount + mnr ≤ st.totalcount →
      (batchStep st bc mnr lsk sm none).2.enabled = true →
      (batchStep st bc mnr lsk sm none).2.scannedCount < st.totalcount) := by
  obtain ⟨hP1, hPm, hPgt⟩ := @cachedPrepare_spec st.col mnr st.startafter hS hC
  set prep := cachedPrepare st.col mnr st.startafter none with hprep
  set pg := (prep.take mnr).map Prod.snd with hpg
  have hpagemap : pg.map (·.key) = (prep.take mnr).map (·.1) := by
    rw [hpg, List.map_map]
    apply List.map_congr_left
    intro e he
    exact ((hPm e (List.mem_of_mem_take he)).1).symm
  have hpw_page : List.Pairwise KLT (pg.map (·.key)) := by
    rw [hpagemap]
    exact List.Pairwise.sublist ((prep.take_sublist mnr).map (·.1)) hP1
  have hpgmem : ∀ r ∈ pg, r.key ∈ allStoreKeys st.col.stores := by
    intro r hr
    rcases List.mem_map.mp hr with ⟨e, he, rfl⟩
    have hm := hPm e (List.mem_of_mem_take he)
    rw [← hm.1]
    exact hm.2
  have htf_page : ∀ r ∈ pg, tildeFree r.key = true := by
    intro r hr
    exact allKeys_tildeFree hS (hpgmem r hr)
  have hgt_page : ∀ s, st.startafter = some s → ∀ r ∈ pg, KLT s r.key := by
    intro s hs r hr
    rcases List.mem_map.mp hr with ⟨e, he, rfl⟩
    have := hPgt s hs (saWF_ne hSa hs) e (List.mem_of_mem_take he)
    rw [(hPm e (List.mem_of_mem_take he)).1] at this
    exact this
  obtain ⟨ppa, ppb, ppc, ppd⟩ := processPage_cursor pg st bc lsk sm hpw_page htf_page hgt_page
  obtain ⟨pc1, pc2, pc3, pc4⟩ := processPage_counts pg st bc lsk sm
  have psub := processPage_yields_sublist pg st bc lsk sm
  have pyl := processPage_yields_le pg st bc lsk sm
  have pscan := processPage_scanned pg st bc lsk sm
  have pbc := processPage_batchcount pg st bc lsk sm
  have pexcl := processPage_excl pg st bc lsk sm
  have hpglen : pg.length ≤ mnr := by
    rw [hpg]
    rw [List.length_map]
    exact (List.length_take_le mnr prep).trans (Nat.le_refl mnr)
  have hylen : (processPage st bc lsk sm pg).yields.length ≤ pg.length := by
    have := psub.length_le
    simpa using this
  simp only [batchStep]
  simp only [← hprep, ← hpg]
  set po := processPage st bc lsk sm pg with hpo
  have htot : po.st.totalcount = st.totalcount := by rw [hpo, processPage_totalcount]
  have hcol : po.st.col = st.col := by rw [hpo, processPage_col]
  have hcntle : po.count ≤ pg.length := by
    have := pc1
    have := pc2
    omega
  have hstores : po.st.col.stores = st.col.stores := by rw [hcol]
  have hcacheWF2 : cacheWF { stores := po.st.col.stores, cache := List.drop po.consumed prep } =
      true := by
    unfold cacheWF
    rw [Bool.and_eq_true]
    constructor
    · exact sortedKeys_of_pairwise
        (List.Pairwise.sublist ((prep.drop_sublist po.consumed).map (·.1)) hP1)
    · apply List.all_eq_true.mpr
      intro e he
      have hem := hPm e ((prep.drop_sublist po.consumed).subset he)
      rw [Bool.and_eq_true]
      constructor
      · exact beq_iff_eq.mpr hem.1
      · rcases List.mem_map.mp hem.2 with ⟨q, hq, hqk⟩
        apply List.any_eq_true.mpr
        refine ⟨q, ?_, beq_iff_eq.mpr hqk⟩
        show q ∈ allRecords po.st.col.stores
        rw [hstores]
        exact hq
  have hgtprep : ∀ s, st.startafter = some s → ∀ e ∈ prep, KLT s e.1 := by
    intro s hs e he
    exact hPgt s hs (saWF_ne hSa hs) e he
  refine ⟨by rw [hpo, processPage_col], by rw [hpo, processPage_stopbefore],
    by rw [hpo, processPage_excludes], by rw [hpo, processPage_endts],
    by rw [hpo, processPage_batchsize], by rw [hpo, processPage_maxNextRecords],
    htot, by rw [hpo, processPage_start], hcacheWF2, ?_, ?_, ?_, ?_, ?_, ?_, ?_, ?_, ?_, ?_, ?_⟩
  · -- saWF of the new state
    unfold saWF
    cases hcnt : po.count with
    | zero =>
      obtain ⟨hsa0, _, _⟩ := ppb hcnt
      rw [hsa0]
      cases hsv : st.startafter with
      | none => rfl
      | some s =>
        rw [Bool.not_eq_eq_eq_not, Bool.not_true]
        apply List.any_eq_false.mpr
        intro e he hbe
        have heq : e.1 = s := eq_of_beq hbe
        have hlt := hgtprep s hsv e ((prep.drop_sublist po.consumed).subset he)
        rw [heq] at hlt
        exact absurd hlt (fun hx => KLT_irrefl hx)
    | succ n =>
      obtain ⟨v, hvsa, hvy, hvhead, hvmono, hvsrc⟩ := ppa (by omega)
      rw [hvsa]
      rw [Bool.not_eq_eq_eq_not, Bool.not_true]
      apply List.any_eq_false.mpr
      intro e he hbe
      have heq : e.1 = v := eq_of_beq hbe
      rcases hvsrc with ⟨rp, hrp, hrpk⟩ | ⟨p, hp, hpk⟩
      · have hconsle : po.consumed ≤ mnr := pc2.trans hpglen
        have hpgtake : pg.take po.consumed = (prep.take po.consumed).map Prod.snd := by
          rw [hpg, ← List.map_take, List.take_take, Nat.min_eq_left hconsle]
        rw [hpgtake] at hrp
        rcases List.mem_map.mp hrp with ⟨ep, hep, rfl⟩
        have hepk : ep.1 = ep.2.key :=
          (hPm ep (List.mem_of_mem_take hep)).1
        have hlt : KLT ep.1 e.1 := pairwise_take_drop hP1 po.consumed ep hep e he
        rw [← hepk] at hrpk
        rw [hrpk] at heq
        rw [heq] at hlt
        exact absurd hlt (fun hx => KLT_irrefl hx)
      · have htf : tildeFree e.1 = true := by
          apply allKeys_tildeFree hS
          exact (hPm e ((prep.drop_sublist po.consumed).subset he)).2
        rw [hpk] at heq
        exact tilde_ne_sentinel htf p heq
  · -- yields pairwise
    exact List.Pairwise.sublist psub hpw_page
  · -- yields above the requested startafter
    intro s hs y hy
    have : y.key ∈ pg.map (·.key) := psub.subset (List.mem_map_of_mem (·.key) hy)
    rcases List.mem_map.mp this with ⟨r0, hr0, hr0k⟩
    rw [← hr0k]
    exact hgt_page s hs r0 hr0
  · -- cursor advanced, measure decreases
    intro hcnt
    obtain ⟨v, hvsa, hvy, hvhead, hvmono, hvsrc⟩ := ppa hcnt
    refine ⟨v, hvsa, hvy, hvmono, ?_⟩
    rw [hvsa]
    cases hpgc : pg with
    | nil =>
      rw [hpgc] at hcntle
      simp at hcntle
      omega
    | cons r0 prest =>
      have hr0m : r0 ∈ pg := by
        rw [hpgc]
        exact List.mem_cons_self r0 prest
      have hr0head : keyLt v r0.key = false := by
        apply hvhead
        rw [hpgc]
        rfl
      rcases List.mem_map.mp (hpgmem r0 hr0m) with ⟨q, hq, hqk⟩
      unfold remBeyond
      refine filter_length_lt ?_ hq ?_ ?_
      · intro x _ hx
        unfold saLtB at hx ⊢
        cases hsv : st.startafter with
        | none => rfl
        | some s =>
          exact keyLt_trans (hvmono s hsv) hx
      · unfold saLtB
        cases hsv : st.startafter with
        | none => rfl
        | some s =>
          show keyLt s q.key = true
          rw [hqk]
          exact hgt_page s hsv r0 hr0m
      · unfold saLtB
        show keyLt v q.key = false
        rw [hqk]
        exact hr0head
  · -- empty page disables the scanner
    intro hcnt
    obtain ⟨hsa0, hy0, hj0⟩ := ppb hcnt
    refine ⟨hsa0, hy0, ?_⟩
    rw [hcnt, hj0]
    have : ¬ (mnr ≤ 0) := by omega
    simp [this]
  · exact hylen.trans hpglen
  · exact pbc
  · exact pscan
  · exact pexcl
  · -- stopbefore fired
    intro k hk
    obtain ⟨⟨rq, hrq, hrqk⟩, hyk, _, hj⟩ := ppc k hk
    refine ⟨hyk, ?_, ?_⟩
    · have hcl : po.consumed = po.count + 1 := by
        rw [pc1, hk]
      have : ¬ (mnr ≤ po.count) := by omega
      rw [hj]
      simp [this]
    · intro s hs
      rw [← hrqk]
      exact hgt_page s hs rq hrq
  · -- total-count budget strictly below after an enabled step
    intro ht hbud hen
    by_cases hj : po.jump = true
    · rw [pscan]
      have hylj : po.yields.length + 1 ≤ po.count := by
        have := pyl
        rw [hj] at this
        simpa using this
      omega
    · have hj2 : po.jump = false := by
        cases hv : po.jump
        · rfl
        · exact absurd hv hj
      rw [hj2, Bool.or_false, Bool.and_eq_true] at hen
      obtain ⟨hen1, hen2⟩ := hen
      rw [Bool.or_eq_true] at hen2
      rcases hen2 with hen2 | hen2
      · rw [htot] at hen2
        have h0 : st.totalcount = 0 := by simpa using hen2
        exact absurd h0 ht
      · rw [htot] at hen2
        exact of_decide_eq_true hen2

theorem getMaxNextRecords_le (st : ScannerState) (bc : Nat) :
    getMaxNextRecords st bc ≤ bc := by
  unfold getMaxNextRecords
  split
  · exact (Nat.min_le_left _ _).trans (Nat.min_le_right _ _)
  · exact Nat.min_le_right _ _

theorem getMaxNextRecords_bud (st : ScannerState) (bc : Nat) (ht : st.totalcount ≠ 0) :
    st.scannedCount + getMaxNextRecords st bc ≤ st.totalcount ∨
      getMaxNextRecords st bc = 0 := by
  unfold getMaxNextRecords
  rw [if_pos ht]
  rcases Nat.le_total st.scannedCount st.totalcount with h | h
  · left
    have := Nat.min_le_right (min st.maxNextRecords bc) (st.totalcount - st.scannedCount)
    omega
  · right
    have h0 : st.totalcount - st.scannedCount = 0 := by omega
    rw [h0]
    exact Nat.min_eq_right (Nat.zero_le _)

/-- Invariant tying the records already yielded in a `get_new_batch` run to
the scanner cursor: either nothing was yielded yet, or every yielded key is
at most the current `startafter`. -/
def AccInv (st : ScannerState) (acc : List Record) : Prop :=
  acc = [] ∨ ∃ s, st.startafter = some s ∧ ∀ y ∈ acc, keyLt s y.key = false
theorem runBatch_guard {fuel : Nat} {st : ScannerState} {bc mnr : Nat} {lsk : Option Key}
    {sm : List (Key × SecEntry)} {sk : Option Key} {acc : List Record} {stopAcc : Option Key}
    (h : (decide (mnr = 0) || !st.enabled) = true) :
    runBatch fuel st bc mnr lsk sm sk acc stopAcc = some ⟨acc, st, stopAcc⟩ := by
  cases fuel <;> simp [runBatch, h]

theorem runBatch_zero {st : ScannerState} {bc mnr : Nat} {lsk : Option Key}
    {sm : List (Key × SecEntry)} {sk : Option Key} {acc : List Record} {stopAcc : Option Key}
    (h : (decide (mnr = 0) || !st.enabled) = false) :
    runBatch 0 st bc mnr lsk sm sk acc stopAcc = none := by
  simp [runBatch, h]

theorem runBatch_step {fuel : Nat} {st : ScannerState} {bc mnr : Nat} {lsk : Option Key}
    {sm : List (Key × SecEntry)} {sk : Option Key} {acc : List Record} {stopAcc : Option Key}
    (h : (decide (mnr = 0) || !st.enabled) = false) :
    runBatch (fuel + 1) st bc mnr lsk sm sk acc stopAcc =
      runBatch fuel (batchStep st bc mnr lsk sm sk).2
        (batchStep st bc mnr lsk sm sk).1.batchcount
        (getMaxNextRecords (batchStep st bc mnr lsk sm sk).2
          (batchStep st bc mnr lsk sm sk).1.batchcount)
        (batchStep st bc mnr lsk sm sk).1.lastSecKey
        (batchStep st bc mnr lsk sm sk).1.secMap sk
        (acc ++ (batchStep st bc mnr lsk sm sk).1.yields)
        (match stopAcc with
         | some k => some k
         | none => (batchStep st bc mnr lsk sm sk).1.stopKey) := by
  conv_lhs => rw [runBatch]
  rw [if_neg]
  intro hc
  rw [h] at hc
  exact Bool.noConfusion hc
theorem runBatch_spec : ∀ (fuel : Nat) (st : ScannerState) (bc mnr : Nat)
    (lsk : Option Key) (sm : List (Key × SecEntry)) (acc : List Record)
    (stopAcc : Option Key) (ro : RunOut),
    storesWF st.col.stores = true → cacheWF st.col = true → saWF st = true →
    mnr ≤ bc →
    List.Pairwise KLT (acc.map (·.key)) →
    AccInv st acc →
    (st.totalcount ≠ 0 → st.scannedCount + mnr ≤ st.totalcount ∨ mnr = 0) →
    (st.enabled = true → st.totalcount ≠ 0 → st.scannedCount < st.totalcount) →
    runBatch fuel st bc mnr lsk sm none acc stopAcc = some ro →
    ro.st.col.stores = st.col.stores ∧
    ro.st.stopbefore = st.stopbefore ∧
    ro.st.excludePrefixes = st.excludePrefixes ∧
    ro.st.endts = st.endts ∧
    ro.st.batchsize = st.batchsize ∧
    ro.st.maxNextRecords = st.maxNextRecords ∧
    ro.st.totalcount = st.totalcount ∧
    ro.st.start = st.start ∧
    cacheWF ro.st.col = true ∧
    saWF ro.st = true ∧
    List.Pairwise KLT (ro.yields.map (·.key)) ∧
    AccInv ro.st ro.yields ∧
    (∃ newys, ro.yields = acc ++ newys ∧
      (∀ y ∈ newys, ∀ p ∈ st.excludePrefixes, p.isPrefixOf y.key = false) ∧
      (∀ s, st.startafter = some s → ∀ y ∈ newys, KLT s y.key)) ∧
    ro.yields.length ≤ acc.length + bc ∧
    (stopAcc = none → ∀ k, ro.stopKey = some k →
      (∀ y ∈ ro.yields, KLT y.key k) ∧ ro.st.enabled = false) ∧
    (ro.st.enabled = true → st.totalcount ≠ 0 → ro.st.scannedCount < st.totalcount) := by
  intro fuel
  induction fuel with
  | zero =>
    intro st bc mnr lsk sm acc stopAcc ro hS hC hSa hmb hAccPw hAccInv hmnrbud hpre hrun
    by_cases hg : (decide (mnr = 0) || !st.enabled) = true
    · rw [runBatch_guard hg] at hrun
      injection hrun with h
      subst h
      refine ⟨rfl, rfl, rfl, rfl, rfl, rfl, rfl, rfl, hC, hSa, hAccPw, hAccInv,
        ⟨[], (List.append_nil acc).symm, fun y hy => absurd hy (List.not_mem_nil y),
          fun s _ y hy => absurd hy (List.not_mem_nil y)⟩,
        Nat.le_add_right _ _, ?_, hpre⟩
      intro h0 k hk
      rw [h0] at hk
      exact Option.noConfusion hk
    · have hg2 : (decide (mnr = 0) || !st.enabled) = false := by
        cases hv : (decide (mnr = 0) || !st.enabled)
        · rfl
        · exact absurd hv hg
      rw [runBatch_zero hg2] at hrun
      exact Option.noConfusion hrun
  | succ fuel ihf =>
    intro st bc mnr lsk sm acc stopAcc ro hS hC hSa hmb hAccPw hAccInv hmnrbud hpre hrun
    by_cases hg : (decide (mnr = 0) || !st.enabled) = true
    · rw [runBatch_guard hg] at hrun
      injection hrun with h
      subst h
      refine ⟨rfl, rfl, rfl, rfl, rfl, rfl, rfl, rfl, hC, hSa, hAccPw, hAccInv,
        ⟨[], (List.append_nil acc).symm, fun y hy => absurd hy (List.not_mem_nil y),
          fun s _ y hy => absurd hy (List.not_mem_nil y)⟩,
        Nat.le_add_right _ _, ?_, hpre⟩
      intro h0 k hk
      rw [h0] at hk
      exact Option.noConfusion hk
    · have hg2 : (decide (mnr = 0) || !st.enabled) = false := by
        cases hv : (decide (mnr = 0) || !st.enabled)
        · rfl
        · exact absurd hv hg
      have hmnr1 : 1 ≤ mnr := by
        have hd := (Bool.or_eq_false_iff.mp hg2).1
        have h2 := of_decide_eq_false hd
        omega
      rw [runBatch_step hg2] at hrun
      obtain ⟨b1, b2, b3, b4, b5, b6, b7, b8, b9, b10, b11, b12, b13, b14, b15, b16, b17,
        b18, b19, b20⟩ := @batchStep_spec st bc mnr lsk sm hS hC hSa hmnr1
      have hS2 : storesWF (batchStep st bc mnr lsk sm none).2.col.stores = true := by
        rw [b1]
        exact hS
      have hmb2 : getMaxNextRecords (batchStep st bc mnr lsk sm none).2
          (batchStep st bc mnr lsk sm none).1.batchcount ≤
          (batchStep st bc mnr lsk sm none).1.batchcount := getMaxNextRecords_le _ _
      have hAccPw2 : List.Pairwise KLT
          ((acc ++ (batchStep st bc mnr lsk sm none).1.yields).map (·.key)) := by
        rw [List.map_append, List.pairwise_append]
        refine ⟨hAccPw, b11, ?_⟩
        intro a ha y hy
        rcases List.mem_map.mp ha with ⟨ra, hra, rfl⟩
        rcases List.mem_map.mp hy with ⟨ry, hry, rfl⟩
        rcases hAccInv with hnil | ⟨s, hsa, hle⟩
        · rw [hnil] at hra
          exact absurd hra (List.not_mem_nil ra)
        · exact keyLt_of_le_of_lt (hle ra hra) (b12 s hsa ry hry)
      have hAccInv2 : AccInv (batchStep st bc mnr lsk sm none).2
          (acc ++ (batchStep st bc mnr lsk sm none).1.yields) := by
        by_cases hcnt : 1 ≤ (batchStep st bc mnr lsk sm none).1.count
        · obtain ⟨v, hvsa, hvy, hvmono, _⟩ := b13 hcnt
          refine Or.inr ⟨v, hvsa, ?_⟩
          intro y hy
          rcases List.mem_append.mp hy with hy1 | hy1
          · rcases hAccInv with hnil | ⟨s, hsa, hle⟩
            · rw [hnil] at hy1
              exact absurd hy1 (List.not_mem_nil y)
            · exact keyLt_asymm (keyLt_of_le_of_lt (hle y hy1) (hvmono s hsa))
          · exact hvy y hy1
        · have hc0 : (batchStep st bc mnr lsk sm none).1.count = 0 := by omega
          obtain ⟨hsaeq, hysnil, _⟩ := b14 hc0
          rw [hysnil, List.append_nil]
          rcases hAccInv with hnil | ⟨s, hsa, hle⟩
          · exact Or.inl hnil
          · exact Or.inr ⟨s, by rw [hsaeq, hsa], hle⟩
      have hmnrbud2 : (batchStep st bc mnr lsk sm none).2.totalcount ≠ 0 →
          (batchStep st bc mnr lsk sm none).2.scannedCount +
            getMaxNextRecords (batchStep st bc mnr lsk sm none).2
              (batchStep st bc mnr lsk sm none).1.batchcount ≤
            (batchStep st bc mnr lsk sm none).2.totalcount ∨
          getMaxNextRecords (batchStep st bc mnr lsk sm none).2
            (batchStep st bc mnr lsk sm none).1.batchcount = 0 :=
        fun ht => getMaxNextRecords_bud _ _ ht
      have hpre2 : (batchStep st bc mnr lsk sm none).2.enabled = true →
          (batchStep st bc mnr lsk sm none).2.totalcount ≠ 0 →
          (batchStep st bc mnr lsk sm none).2.scannedCount <
            (batchStep st bc mnr lsk sm none).2.totalcount := by
        intro he ht
        rw [b7] at ht ⊢
        have hbud : st.scannedCount + mnr ≤ st.totalcount := by
          rcases hmnrbud ht with h | h
          · exact h
          · omega
        exact b20 ht hbud he
      cases stopAcc with
      | some k1 =>
        have hrun2 : runBatch fuel (batchStep st bc mnr lsk sm none).2
            (batchStep st bc mnr lsk sm none).1.batchcount
            (getMaxNextRecords (batchStep st bc mnr lsk sm none).2
              (batchStep st bc mnr lsk sm none).1.batchcount)
            (batchStep st bc mnr lsk sm none).1.lastSecKey
            (batchStep st bc mnr lsk sm none).1.secMap none
            (acc ++ (batchStep st bc mnr lsk sm none).1.yields)
            (some k1) = some ro := hrun
        obtain ⟨c1, c2, c3, c4, c5, c6, c7, c8, c9, c10, c11, c12, c13, c14, c15, c16⟩ :=
          ihf (batchStep st bc mnr lsk sm none).2
            (batchStep st bc mnr lsk sm none).1.batchcount
            (getMaxNextRecords (batchStep st bc mnr lsk sm none).2
              (batchStep st bc mnr lsk sm none).1.batchcount)
            (batchStep st bc mnr lsk sm none).1.lastSecKey
            (batchStep st bc mnr lsk sm none).1.secMap
            (acc ++ (batchStep st bc mnr lsk sm none).1.yields)
            (some k1)
            ro hS2 b9 b10 hmb2 hAccPw2 hAccInv2 hmnrbud2 hpre2 hrun2
        refine ⟨c1.trans b1, c2.trans b2, c3.trans b3, c4.trans b4, c5.trans b5,
          c6.trans b6, c7.trans b7, c8.trans b8, c9, c10, c11, c12, ?_, ?_, ?_, ?_⟩
        · obtain ⟨newys2, hroy, g1, g2⟩ := c13
          refine ⟨(batchStep st bc mnr lsk sm none).1.yields ++ newys2, ?_, ?_, ?_⟩
          · rw [hroy, List.append_assoc]
          · intro y hy
            rcases List.mem_append.mp hy with hy1 | hy1
            · exact b18 y hy1
            · intro p hp
              refine g1 y hy1 p ?_
              rw [b3]
              exact hp
          · intro s hsa y hy
            rcases List.mem_append.mp hy with hy1 | hy1
            · exact b12 s hsa y hy1
            · by_cases hcnt : 1 ≤ (batchStep st bc mnr lsk sm none).1.count
              · obtain ⟨v, hvsa, _, hvmono, _⟩ := b13 hcnt
                exact keyLt_trans (hvmono s hsa) (g2 v hvsa y hy1)
              · have hc0 : (batchStep st bc mnr lsk sm none).1.count = 0 := by omega
                obtain ⟨hsaeq, _, _⟩ := b14 hc0
                refine g2 s ?_ y hy1
                rw [hsaeq, hsa]
        · rw [b16] at c14
          simp only [List.length_append] at c14
          have hbm := b15
          have hmble := hmb
          omega
        · intro h0
          exact Option.noConfusion h0
        · intro he ht
          rw [← b7] at ht
          have hlt := c16 he ht
          rw [b7] at hlt
          exact hlt
      | none =>
        have hrun2 : runBatch fuel (batchStep st bc mnr lsk sm none).2
            (batchStep st bc mnr lsk sm none).1.batchcount
            (getMaxNextRecords (batchStep st bc mnr lsk sm none).2
              (batchStep st bc mnr lsk sm none).1.batchcount)
            (batchStep st bc mnr lsk sm none).1.lastSecKey
            (batchStep st bc mnr lsk sm none).1.secMap none
            (acc ++ (batchStep st bc mnr lsk sm none).1.yields)
            ((batchStep st bc mnr lsk sm none).1.stopKey) = some ro := hrun
        cases hps : (batchStep st bc mnr lsk sm none).1.stopKey with
        | some k0 =>
          obtain ⟨hyk0, henf, hmono0⟩ := b19 k0 hps
          have hguard2 : (decide ((getMaxNextRecords (batchStep st bc mnr lsk sm none).2
              (batchStep st bc mnr lsk sm none).1.batchcount) = 0) ||
              !(batchStep st bc mnr lsk sm none).2.enabled) = true := by
            rw [henf]
            simp
          rw [hps, runBatch_guard hguard2] at hrun2
          injection hrun2 with h
          subst h
          refine ⟨b1, b2, b3, b4, b5, b6, b7, b8, b9, b10, hAccPw2, hAccInv2,
            ⟨(batchStep st bc mnr lsk sm none).1.yields, rfl, b18, b12⟩, ?_, ?_, ?_⟩
          · have hbm := b15
            have hmble := hmb
            simp only [List.length_append]
            omega
          · intro h0 k hk
            have hk2 : k0 = k := by injection hk
            subst hk2
            refine ⟨?_, henf⟩
            intro y hy
            rcases List.mem_append.mp hy with hy1 | hy1
            · rcases hAccInv with hnil | ⟨s, hsa, hle⟩
              · rw [hnil] at hy1
                exact absurd hy1 (List.not_mem_nil y)
              · exact keyLt_of_le_of_lt (hle y hy1) (hmono0 s hsa)
            · exact hyk0 y hy1
          · intro he
            rw [henf] at he
            exact Bool.noConfusion he
        | none =>
          rw [hps] at hrun2
          obtain ⟨c1, c2, c3, c4, c5, c6, c7, c8, c9, c10, c11, c12, c13, c14, c15, c16⟩ :=
            ihf (batchStep st bc mnr lsk sm none).2
              (batchStep st bc mnr lsk sm none).1.batchcount
              (getMaxNextRecords (batchStep st bc mnr lsk sm none).2
                (batchStep st bc mnr lsk sm none).1.batchcount)
              (batchStep st bc mnr lsk sm none).1.lastSecKey
              (batchStep st bc mnr lsk sm none).1.secMap
              (acc ++ (batchStep st bc mnr lsk sm none).1.yields)
              none
              ro hS2 b9 b10 hmb2 hAccPw2 hAccInv2 hmnrbud2 hpre2 hrun2
          refine ⟨c1.trans b1, c2.trans b2, c3.trans b3, c4.trans b4, c5.trans b5,
            c6.trans b6, c7.trans b7, c8.trans b8, c9, c10, c11, c12, ?_, ?_, ?_, ?_⟩
          · obtain ⟨newys2, hroy, g1, g2⟩ := c13
            refine ⟨(batchStep st bc mnr lsk sm none).1.yields ++ newys2, ?_, ?_, ?_⟩
            · rw [hroy, List.append_assoc]
            · intro y hy
              rcases List.mem_append.mp hy with hy1 | hy1
              · exact b18 y hy1
              · intro p hp
                refine g1 y hy1 p ?_
                rw [b3]
                exact hp
            · intro s hsa y hy
              rcases List.mem_append.mp hy with hy1 | hy1
              · exact b12 s hsa y hy1
              · by_cases hcnt : 1 ≤ (batchStep st bc mnr lsk sm none).1.count
                · obtain ⟨v, hvsa, _, hvmono, _⟩ := b13 hcnt
                  exact keyLt_trans (hvmono s hsa) (g2 v hvsa y hy1)
                · have hc0 : (batchStep st bc mnr lsk sm none).1.count = 0 := by omega
                  obtain ⟨hsaeq, _, _⟩ := b14 hc0
                  refine g2 s ?_ y hy1
                  rw [hsaeq, hsa]
          · rw [b16] at c14
            simp only [List.length_append] at c14
            have hbm := b15
            have hmble := hmb
            omega
          · intro h0 k hk
            exact c15 rfl k hk
          · intro he ht
            rw [← b7] at ht
            have hlt := c16 he ht
            rw [b7] at hlt
            exact hlt
theorem runBatch_total : ∀ (fuel : Nat) (st : ScannerState) (bc mnr : Nat)
    (lsk : Option Key) (sm : List (Key × SecEntry)) (acc : List Record)
    (stopAcc : Option Key),
    storesWF st.col.stores = true → cacheWF st.col = true → saWF st = true →
    remBeyond st.col.stores st.startafter < fuel →
    (runBatch fuel st bc mnr lsk sm none acc stopAcc).isSome = true := by
  intro fuel
  induction fuel with
  | zero =>
    intro st bc mnr lsk sm acc stopAcc _ _ _ hrem
    exact absurd hrem (Nat.not_lt_zero _)
  | succ fuel ihf =>
    intro st bc mnr lsk sm acc stopAcc hS hC hSa hrem
    by_cases hg : (decide (mnr = 0) || !st.enabled) = true
    · rw [runBatch_guard hg]
      rfl
    · have hg2 : (decide (mnr = 0) || !st.enabled) = false := by
        cases hv : (decide (mnr = 0) || !st.enabled)
        · rfl
        · exact absurd hv hg
      have hmnr1 : 1 ≤ mnr := by
        have hd := (Bool.or_eq_false_iff.mp hg2).1
        have h2 := of_decide_eq_false hd
        omega
      rw [runBatch_step hg2]
      obtain ⟨b1, b2, b3, b4, b5, b6, b7, b8, b9, b10, b11, b12, b13, b14, b15, b16, b17,
        b18, b19, b20⟩ := @batchStep_spec st bc mnr lsk sm hS hC hSa hmnr1
      by_cases hcnt : 1 ≤ (batchStep st bc mnr lsk sm none).1.count
      · obtain ⟨v, hvsa, _, _, hdec⟩ := b13 hcnt
        have hS2 : storesWF (batchStep st bc mnr lsk sm none).2.col.stores = true := by
          rw [b1]
          exact hS
        refine ihf (batchStep st bc mnr lsk sm none).2 _ _ _ _ _ _ hS2 b9 b10 ?_
        rw [b1]
        omega
      · have hc0 : (batchStep st bc mnr lsk sm none).1.count = 0 := by omega
        obtain ⟨_, _, henf⟩ := b14 hc0
        have hguard2 : (decide ((getMaxNextRecords (batchStep st bc mnr lsk sm none).2
            (batchStep st bc mnr lsk sm none).1.batchcount) = 0) ||
            !(batchStep st bc mnr lsk sm none).2.enabled) = true := by
          rw [henf]
          simp
        rw [runBatch_guard hguard2]
        rfl

theorem runBatch_progress : ∀ (fuel : Nat) (st : ScannerState) (bc mnr : Nat)
    (lsk : Option Key) (sm : List (Key × SecEntry)) (acc : List Record)
    (stopAcc : Option Key) (ro : RunOut),
    storesWF st.col.stores = true → cacheWF st.col = true → saWF st = true →
    runBatch fuel st bc mnr lsk sm none acc stopAcc = some ro →
    remBeyond st.col.stores ro.st.startafter ≤ remBeyond st.col.stores st.startafter ∧
    (1 ≤ mnr → ro.st.enabled = true →
      remBeyond st.col.stores ro.st.startafter < remBeyond st.col.stores st.startafter) := by
  intro fuel
  induction fuel with
  | zero =>
    intro st bc mnr lsk sm acc stopAcc ro hS hC hSa hrun
    by_cases hg : (decide (mnr = 0) || !st.enabled) = true
    · rw [runBatch_guard hg] at hrun
      injection hrun with h
      subst h
      refine ⟨Nat.le_refl _, ?_⟩
      intro hmnr1 hen
      rcases Bool.or_eq_true_iff.mp hg with h1 | h1
      · have := of_decide_eq_true h1
        omega
      · rw [Bool.not_eq_true' ] at h1
        rw [h1] at hen
        exact Bool.noConfusion hen
    · have hg2 : (decide (mnr = 0) || !st.enabled) = false := by
        cases hv : (decide (mnr = 0) || !st.enabled)
        · rfl
        · exact absurd hv hg
      rw [runBatch_zero hg2] at hrun
      exact Option.noConfusion hrun
  | succ fuel ihf =>
    intro st bc mnr lsk sm acc stopAcc ro hS hC hSa hrun
    by_cases hg : (decide (mnr = 0) || !st.enabled) = true
    · rw [runBatch_guard hg] at hrun
      injection hrun with h
      subst h
      refine ⟨Nat.le_refl _, ?_⟩
      intro hmnr1 hen
      rcases Bool.or_eq_true_iff.mp hg with h1 | h1
      · have := of_decide_eq_true h1
        omega
      · rw [Bool.not_eq_true' ] at h1
        rw [h1] at hen
        exact Bool.noConfusion hen
    · have hg2 : (decide (mnr = 0) || !st.enabled) = false := by
        cases hv : (decide (mnr = 0) || !st.enabled)
        · rfl
        · exact absurd hv hg
      have hmnr1 : 1 ≤ mnr := by
        have hd := (Bool.or_eq_false_iff.mp hg2).1
        have h2 := of_decide_eq_false hd
        omega
      rw [runBatch_step hg2] at hrun
      obtain ⟨b1, b2, b3, b4, b5, b6, b7, b8, b9, b10, b11, b12, b13, b14, b15, b16, b17,
        b18, b19, b20⟩ := @batchStep_spec st bc mnr lsk sm hS hC hSa hmnr1
      have hS2 : storesWF (batchStep st bc mnr lsk sm none).2.col.stores = true := by
        rw [b1]
        exact hS
      cases stopAcc with
      | some k1 =>
        have hrun2 : runBatch fuel (batchStep st bc mnr lsk sm none).2
            (batchStep st bc mnr lsk sm none).1.batchcount
            (getMaxNextRecords (batchStep st bc mnr lsk sm none).2
              (batchStep st bc mnr lsk sm none).1.batchcount)
            (batchStep st bc mnr lsk sm none).1.lastSecKey
            (batchStep st bc mnr lsk sm none).1.secMap none
            (acc ++ (batchStep st bc mnr lsk sm none).1.yields)
            (some k1) = some ro := hrun
        obtain ⟨ih1, ih2⟩ := ihf (batchStep st bc mnr lsk sm none).2
          (batchStep st bc mnr lsk sm none).1.batchcount
          (getMaxNextRecords (batchStep st bc mnr lsk sm none).2
            (batchStep st bc mnr lsk sm none).1.batchcount)
          (batchStep st bc mnr lsk sm none).1.lastSecKey
          (batchStep st bc mnr lsk sm none).1.secMap
          (acc ++ (batchStep st bc mnr lsk sm none).1.yields)
          (some k1)
          ro hS2 b9 b10 hrun2
        rw [b1] at ih1 ih2
        by_cases hcnt : 1 ≤ (batchStep st bc mnr lsk sm none).1.count
        · obtain ⟨v, hvsa, _, _, hdec⟩ := b13 hcnt
          constructor
          · omega
          · intro _ _
            omega
        · have hc0 : (batchStep st bc mnr lsk sm none).1.count = 0 := by omega
          obtain ⟨hsaeq, _, henf⟩ := b14 hc0
          rw [hsaeq] at ih1 ih2
          refine ⟨ih1, ?_⟩
          intro _ hen
          have hguard2 : (decide ((getMaxNextRecords (batchStep st bc mnr lsk sm none).2
              (batchStep st bc mnr lsk sm none).1.batchcount) = 0) ||
              !(batchStep st bc mnr lsk sm none).2.enabled) = true := by
            rw [henf]
            simp
          rw [runBatch_guard hguard2] at hrun2
          injection hrun2 with h
          subst h
          rw [henf] at hen
          exact Bool.noConfusion hen
      | none =>
        have hrun2 : runBatch fuel (batchStep st bc mnr lsk sm none).2
            (batchStep st bc mnr lsk sm none).1.batchcount
            (getMaxNextRecords (batchStep st bc mnr lsk sm none).2
              (batchStep st bc mnr lsk sm none).1.batchcount)
            (batchStep st bc mnr lsk sm none).1.lastSecKey
            (batchStep st bc mnr lsk sm none).1.secMap none
            (acc ++ (batchStep st bc mnr lsk sm none).1.yields)
            ((batchStep st bc mnr lsk sm none).1.stopKey) = some ro := hrun
        obtain ⟨ih1, ih2⟩ := ihf (batchStep st bc mnr lsk sm none).2
          (batchStep st bc mnr lsk sm none).1.batchcount
          (getMaxNextRecords (batchStep st bc mnr lsk sm none).2
            (batchStep st bc mnr lsk sm none).1.batchcount)
          (batchStep st bc mnr lsk sm none).1.lastSecKey
          (batchStep st bc mnr lsk sm none).1.secMap
          (acc ++ (batchStep st bc mnr lsk sm none).1.yields)
          ((batchStep st bc mnr lsk sm none).1.stopKey)
          ro hS2 b9 b10 hrun2
        rw [b1] at ih1 ih2
        by_cases hcnt : 1 ≤ (batchStep st bc mnr lsk sm none).1.count
        · obtain ⟨v, hvsa, _, _, hdec⟩ := b13 hcnt
          constructor
          · omega
          · intro _ _
            omega
        · have hc0 : (batchStep st bc mnr lsk sm none).1.count = 0 := by omega
          obtain ⟨hsaeq, _, henf⟩ := b14 hc0
          rw [hsaeq] at ih1 ih2
          refine ⟨ih1, ?_⟩
          intro _ hen
          have hguard2 : (decide ((getMaxNextRecords (batchStep st bc mnr lsk sm none).2
              (batchStep st bc mnr lsk sm none).1.batchcount) = 0) ||
              !(batchStep st bc mnr lsk sm none).2.enabled) = true := by
            rw [henf]
            simp
          rw [runBatch_guard hguard2] at hrun2
          injection hrun2 with h
          subst h
          rw [henf] at hen
          exact Bool.noConfusion hen

theorem setStart_self (st : ScannerState) (h : st.start = none) :
    { st with start := none } = st := by
  cases st
  simp only [ScannerState.mk.injEq]
  simp at h
  simp [h]

theorem getNewBatch_eq (fuel : Nat) (st : ScannerState) (h : st.start = none) :
    getNewBatch fuel st =
      runBatch fuel st st.batchsize (getMaxNextRecords st st.batchsize)
        none [] none [] none := by
  unfold getNewBatch
  rw [setStart_self st h, h]
theorem scanBatches_batches : ∀ (fuel innerFuel : Nat) (st : ScannerState)
    (bs : List (List Record)) (st2 : ScannerState) (k : Option Key),
    storesWF st.col.stores = true → cacheWF st.col = true → saWF st = true →
    st.start = none →
    (st.enabled = true → st.totalcount ≠ 0 → st.scannedCount < st.totalcount) →
    scanBatches fuel innerFuel st = some (bs, st2, k) →
    ∀ b ∈ bs, 1 ≤ b.length ∧ b.length ≤ st.batchsize := by
  intro fuel
  induction fuel with
  | zero =>
    intro innerFuel st bs st2 k _ _ _ _ _ hscan
    exact Option.noConfusion hscan
  | succ f ihf =>
    intro innerFuel st bs st2 k hS hC hSa hstart hpre hscan
    by_cases hen : st.enabled = true
    · simp only [scanBatches, hen, Bool.not_true, Bool.false_eq_true, if_false] at hscan
      cases hgn : getNewBatch innerFuel st with
      | none =>
        simp only [hgn] at hscan
        exact Option.noConfusion hscan
      | some ro =>
        simp only [hgn] at hscan
        rw [getNewBatch_eq innerFuel st hstart] at hgn
        obtain ⟨c1, c2, c3, c4, c5, c6, c7, c8, c9, c10, c11, c12, c13, c14, c15, c16⟩ :=
          runBatch_spec innerFuel st st.batchsize (getMaxNextRecords st st.batchsize)
            none [] [] none ro hS hC hSa (getMaxNextRecords_le st st.batchsize)
            List.Pairwise.nil (Or.inl rfl)
            (fun ht => getMaxNextRecords_bud st st.batchsize ht) hpre hgn
        have hS2 : storesWF ro.st.col.stores = true := by
          rw [c1]
          exact hS
        have hpre2 : ro.st.enabled = true → ro.st.totalcount ≠ 0 →
            ro.st.scannedCount < ro.st.totalcount := by
          intro he ht
          rw [c7] at ht ⊢
          exact c16 he ht
        cases hrec : scanBatches f innerFuel ro.st with
        | none =>
          simp only [hrec] at hscan
          exact Option.noConfusion hscan
        | some trip =>
          obtain ⟨bs1, st3, k1⟩ := trip
          simp only [hrec] at hscan
          injection hscan with h
          have hrest := ihf innerFuel ro.st bs1 st3 k1 hS2 c9 c10 (c8.trans hstart) hpre2 hrec
          intro b hb
          have hbseq : bs = if ro.yields.isEmpty then bs1 else ro.yields :: bs1 := by
            have hfst := congrArg Prod.fst h
            simpa using hfst.symm
          rw [hbseq] at hb
          by_cases hye : ro.yields.isEmpty = true
          · rw [if_pos hye] at hb
            have := hrest b hb
            rw [c5] at this
            exact this
          · rw [if_neg (fun hx => hye hx)] at hb
            rcases List.mem_cons.mp hb with rfl | hb2
            · constructor
              · have hne : ro.yields ≠ [] := by
                  intro hx
                  rw [hx] at hye
                  exact hye rfl
                exact List.length_pos.mpr hne
              · have hlen := c14
                simpa using hlen
            · have := hrest b hb2
              rw [c5] at this
              exact this
    · have hen2 : st.enabled = false := by
        cases hv : st.enabled
        · rfl
        · exact absurd hv hen
      simp only [scanBatches, hen2, Bool.not_false, if_true] at hscan
      injection hscan with h
      have hbs : bs = [] := (congrArg Prod.fst h).symm
      rw [hbs]
      intro b hb
      exact absurd hb (List.not_mem_nil b)
theorem scanBatches_total : ∀ (fuel innerFuel : Nat) (st : ScannerState),
    storesWF st.col.stores = true → cacheWF st.col = true → saWF st = true →
    st.start = none → 1 ≤ st.batchsize → 1 ≤ st.maxNextRecords →
    (st.enabled = true → st.totalcount ≠ 0 → st.scannedCount < st.totalcount) →
    remBeyond st.col.stores st.startafter < innerFuel →
    remBeyond st.col.stores st.startafter + 2 ≤ fuel →
    (scanBatches fuel innerFuel st).isSome = true := by
  intro fuel
  induction fuel with
  | zero =>
    intro innerFuel st _ _ _ _ _ _ _ _ hfuel
    omega
  | succ f ihf =>
    intro innerFuel st hS hC hSa hstart hbs hmx hpre hinner hfuel
    by_cases hen : st.enabled = true
    · have hgnS : (getNewBatch innerFuel st).isSome = true := by
        rw [getNewBatch_eq innerFuel st hstart]
        exact runBatch_total innerFuel st st.batchsize (getMaxNextRecords st st.batchsize)
          none [] [] none hS hC hSa hinner
      obtain ⟨ro, hgn⟩ := Option.isSome_iff_exists.mp hgnS
      have hrun := hgn
      rw [getNewBatch_eq innerFuel st hstart] at hrun
      obtain ⟨c1, c2, c3, c4, c5, c6, c7, c8, c9, c10, c11, c12, c13, c14, c15, c16⟩ :=
        runBatch_spec innerFuel st st.batchsize (getMaxNextRecords st st.batchsize)
          none [] [] none ro hS hC hSa (getMaxNextRecords_le st st.batchsize)
          List.Pairwise.nil (Or.inl rfl)
          (fun ht => getMaxNextRecords_bud st st.batchsize ht)
          hpre hrun
      obtain ⟨hp1, hp2⟩ := runBatch_progress innerFuel st st.batchsize
        (getMaxNextRecords st st.batchsize) none [] [] none ro hS hC hSa hrun
      have hS2 : storesWF ro.st.col.stores = true := by
        rw [c1]
        exact hS
      have hmnrpos : 1 ≤ getMaxNextRecords st st.batchsize := by
        simp only [getMaxNextRecords]
        by_cases ht : st.totalcount = 0
        · rw [if_neg (fun hx => hx ht)]
          omega
        · have hsc := hpre hen ht
          rw [if_pos ht]
          omega
      have hrecS : (scanBatches f innerFuel ro.st).isSome = true := by
        cases hroen : ro.st.enabled with
        | false =>
          cases f with
          | zero => omega
          | succ f2 =>
            simp only [scanBatches, hroen, Bool.not_false, if_true]
            rfl
        | true =>
          have hdec := hp2 hmnrpos hroen
          refine ihf innerFuel ro.st hS2 c9 c10 (c8.trans hstart) ?_ ?_ ?_ ?_ ?_
          · rw [c5]
            exact hbs
          · rw [c6]
            exact hmx
          · intro he ht
            rw [c7] at ht ⊢
            exact c16 he ht
          · rw [c1]
            omega
          · rw [c1]
            omega
      obtain ⟨trip, htrip⟩ := Option.isSome_iff_exists.mp hrecS
      obtain ⟨bs1, st3, k1⟩ := trip
      simp only [scanBatches, hen, Bool.not_true, Bool.false_eq_true, if_false]
      simp only [hgn, htrip]
      rfl
    · have hen2 : st.enabled = false := by
        cases hv : st.enabled
        · rfl
        · exact absurd hv hen
      simp only [scanBatches, hen2, Bool.not_false, if_true]
      rfl
theorem getNewBatch_disabled (fuel : Nat) (st : ScannerState) (h : st.enabled = false) :
    getNewBatch fuel st = some ⟨[], { st with start := none }, none⟩ := by
  unfold getNewBatch
  have hg : (decide ((getMaxNextRecords st st.batchsize) = 0) ||
      !({ st with start := none } : ScannerState).enabled) = true := by
    have he : ({ st with start := none } : ScannerState).enabled = false := h
    rw [he]
    simp
  rw [runBatch_guard hg]

theorem getNewBatch_stall (fuel : Nat) (st : ScannerState)
    (h : getMaxNextRecords st st.batchsize = 0) :
    getNewBatch fuel st = some ⟨[], { st with start := none }, none⟩ := by
  unfold getNewBatch
  have hg : (decide ((getMaxNextRecords st st.batchsize) = 0) ||
      !({ st with start := none } : ScannerState).enabled) = true := by
    rw [h]
    simp
  rw [runBatch_guard hg]

theorem scanBatches_stall : ∀ (fuel innerFuel : Nat) (st : ScannerState),
    getMaxNextRecords st st.batchsize = 0 → st.enabled = true →
    scanBatches fuel innerFuel st = none := by
  intro fuel
  induction fuel with
  | zero =>
    intro innerFuel st _ _
    rfl
  | succ f ihf =>
    intro innerFuel st h hen
    have h2 : getMaxNextRecords { st with start := none }
        ({ st with start := none } : ScannerState).batchsize = 0 := h
    have hen2 : ({ st with start := none } : ScannerState).enabled = true := hen
    have hrec := ihf innerFuel { st with start := none } h2 hen2
    rw [hen] at hrec
    simp only [scanBatches, hen, Bool.not_true, Bool.false_eq_true, if_false,
      getNewBatch_stall innerFuel st h]
    simp only [hrec]

/-- The scan loop runs forever producing nothing: no iteration bound makes
the fueled `scan_collection_batches` model finish. -/
def scanDiverges (st : ScannerState) : Prop :=
  ∀ fuel innerFuel : Nat, scanBatches fuel innerFuel st = none

theorem findCut_none {s : Key} : ∀ {c : List (Key × Record)}, findCut s c = none →
    ∀ y ∈ c, keyLt s y.1 = false := by
  intro c
  induction c with
  | nil =>
    intro _ y hy
    exact absurd hy (List.not_mem_nil y)
  | cons x xs ih =>
    intro h y hy
    by_cases hx : keyLt s x.1 = true
    · simp [findCut, hx] at h
    · have hx2 : keyLt s x.1 = false := by
        cases hv : keyLt s x.1
        · rfl
        · exact absurd hv hx
      simp only [findCut, hx2, Bool.false_eq_true, if_false] at h
      rcases List.mem_cons.mp hy with rfl | hy2
      · exact hx2
      · exact ih h y hy2

theorem trimCache_mem_gt {s : Key} : ∀ {c : List (Key × Record)} {e : Key × Record},
    List.Pairwise KLT (c.map (·.1)) → c.any (fun x => keyLt s x.1) = true →
    e ∈ trimCache c s → KLT s e.1 := by
  intro c
  induction c with
  | nil =>
    intro e _ hsome _
    simp at hsome
  | cons x xs ih =>
    intro e hp hsome he
    have hptail : List.Pairwise KLT (xs.map (·.1)) := (List.pairwise_cons.mp hp).2
    by_cases hx : keyLt s x.1 = true
    · have hxs : keyLt x.1 s = false := keyLt_asymm hx
      simp only [trimCache, findCut, hx, if_true] at he
      rw [List.dropWhile_cons] at he
      rw [hxs] at he
      simp at he
      rcases he with rfl | he2
      · exact hx
      · have hxe : KLT x.1 e.1 :=
          List.rel_of_pairwise_cons hp (List.mem_map_of_mem (·.1) he2)
        exact keyLt_trans hx hxe
    · have hx2 : keyLt s x.1 = false := by
        cases hv : keyLt s x.1
        · rfl
        · exact absurd hv hx
      have hsome2 : xs.any (fun x => keyLt s x.1) = true := by
        rcases List.any_eq_true.mp hsome with ⟨y, hy, hys⟩
        rcases List.mem_cons.mp hy with rfl | hy2
        · rw [hx2] at hys
          exact Bool.noConfusion hys
        · exact List.any_eq_true.mpr ⟨y, hy2, hys⟩
      cases hfc : findCut s xs with
      | some suf =>
        have heq : trimCache (x :: xs) s = trimCache xs s := by
          simp [trimCache, findCut, hx2, hfc]
        rw [heq] at he
        exact ih hptail hsome2 he
      | none =>
        rcases List.any_eq_true.mp hsome2 with ⟨y, hy, hys⟩
        have := findCut_none hfc y hy
        rw [this] at hys
        exact Bool.noConfusion hys

theorem cachedPrepare_cacheOnly (c : CachedCol) (count : Nat) (sa startKey : Option Key)
    (h1 : c.stores.length = 1) (h2 : count ≤ (trimmedCache c sa).length) :
    cachedPrepare c count sa startKey = trimmedCache c sa := by
  simp only [cachedPrepare]
  have hfr : freshRecords c.stores count (trimmedCache c sa).length
      (fetchStartAfter (trimmedCache c sa) sa) startKey = [] := by
    unfold freshRecords
    rw [h1]
    rw [if_neg]
    omega
  rw [hfr]
  simp only [List.map_nil]
  by_cases hemp : (trimmedCache c sa).isEmpty = true
  · rw [if_pos hemp]
    rw [List.isEmpty_iff] at hemp
    rw [hemp]
    rfl
  · rw [if_neg hemp]
    simp
theorem retryGo_step {A : Type} (op : Nat → FetchOutcome A) (w i rem : Nat) :
    retryGo op w i (rem + 1) =
      match op i with
      | .ok a => (1, 0, .ok a)
      | .err ki =>
        if retry_on_exception ki && rem != 0 then
          ((retryGo op w (i + 1) rem).1 + 1, (retryGo op w (i + 1) rem).2.1 + w,
            (retryGo op w (i + 1) rem).2.2)
        else (1, 0, .err ki) := rfl

theorem retryGo_err_all {A : Type} (op : Nat → FetchOutcome A) (w : Nat) :
    ∀ (rem i : Nat), 1 ≤ rem → (∀ j, j < rem → op (i + j) = .err false) →
    retryGo op w i rem = (rem, (rem - 1) * w, .err false) := by
  intro rem
  induction rem with
  | zero =>
    intro i h _
    omega
  | succ r ihr =>
    intro i _ hall
    have h0 : op i = .err false := by
      have := hall 0 (Nat.succ_pos r)
      simpa using this
    cases r with
    | zero =>
      simp [retryGo, h0, retry_on_exception]
    | succ r2 =>
      have hrec := ihr (i + 1) (Nat.succ_pos r2) (fun j hj => by
        have := hall (j + 1) (by omega)
        rw [show i + (j + 1) = i + 1 + j by omega] at this
        exact this)
      have hr0 : ((r2 + 1 : Nat) != 0) = true := by simp
      rw [retryGo_step, h0]
      simp only [retry_on_exception, Bool.not_false, Bool.true_and, hr0, if_true]
      rw [hrec]
      simp [Nat.succ_mul]

theorem retryGo_ok {A : Type} (op : Nat → FetchOutcome A) (w : Nat) :
    ∀ (j rem i : Nat) (a : A), j + 1 ≤ rem → (∀ t, t < j → op (i + t) = .err false) →
    op (i + j) = .ok a → retryGo op w i rem = (j + 1, j * w, .ok a) := by
  intro j
  induction j with
  | zero =>
    intro rem i a hle _ hj
    simp only [Nat.add_zero] at hj
    cases rem with
    | zero => omega
    | succ r => simp [retryGo, hj]
  | succ t iht =>
    intro rem i a hle hprev hj
    cases rem with
    | zero => omega
    | succ r =>
      have h0 : op i = .err false := by
        have := hprev 0 (Nat.succ_pos t)
        simpa using this
      have hrec := iht r (i + 1) a (by omega) (fun s hs => by
        have := hprev (s + 1) (by omega)
        rw [show i + (s + 1) = i + 1 + s by omega] at this
        exact this) (by
        rw [show i + 1 + t = i + (t + 1) by omega]
        exact hj)
      have hr0 : ((r : Nat) != 0) = true := by
        simp
        omega
      rw [retryGo_step, h0]
      simp only [retry_on_exception, Bool.not_false, Bool.true_and, hr0, if_true]
      rw [hrec]
      simp [Nat.succ_mul]

theorem retryGo_interrupt {A : Type} (op : Nat → FetchOutcome A) (w : Nat) :
    ∀ (j rem i : Nat), j + 1 ≤ rem → (∀ t, t < j → op (i + t) = .err false) →
    op (i + j) = .err true → retryGo op w i rem = (j + 1, j * w, .err true) := by
  intro j
  induction j with
  | zero =>
    intro rem i hle _ hj
    simp only [Nat.add_zero] at hj
    cases rem with
    | zero => omega
    | succ r => simp [retryGo, hj, retry_on_exception]
  | succ t iht =>
    intro rem i hle hprev hj
    cases rem with
    | zero => omega
    | succ r =>
      have h0 : op i = .err false := by
        have := hprev 0 (Nat.succ_pos t)
        simpa using this
      have hrec := iht r (i + 1) (by omega) (fun s hs => by
        have := hprev (s + 1) (by omega)
        rw [show i + (s + 1) = i + 1 + s by omega] at this
        exact this) (by
        rw [show i + 1 + t = i + (t + 1) by omega]
        exact hj)
      have hr0 : ((r : Nat) != 0) = true := by
        simp
        omega
      rw [retryGo_step, h0]
      simp only [retry_on_exception, Bool.not_false, Bool.true_and, hr0, if_true]
      rw [hrec]
      simp [Nat.succ_mul]
theorem le_foldl_max : ∀ (l : List Nat) (a : Nat),
    a ≤ l.foldl max a ∧ ∀ x ∈ l, x ≤ l.foldl max a := by
  intro l
  induction l with
  | nil =>
    intro a
    refine ⟨Nat.le_refl a, ?_⟩
    intro x hx
    exact absurd hx (List.not_mem_nil x)
  | cons b t ih =>
    intro a
    obtain ⟨ih1, ih2⟩ := ih (max a b)
    refine ⟨?_, ?_⟩
    · exact (Nat.le_max_left a b).trans ih1
    · intro x hx
      rcases List.mem_cons.mp hx with rfl | hx2
      · exact (Nat.le_max_right a x).trans ih1
      · exact ih2 x hx2

theorem mem_le_maxIdx {l : List Nat} {x : Nat} (hx : x ∈ l) : x ≤ maxIdx l :=
  (le_foldl_max l 0).2 x hx

theorem nodup_full_range {l : List Nat} {k : Nat} (hnd : l.Nodup) (hlen : l.length = k)
    (hb : ∀ x ∈ l, x < k) : ∀ i, i < k → i ∈ l := by
  have hsub : l.toFinset ⊆ Finset.range k := by
    intro x hx
    exact Finset.mem_range.mpr (hb x (List.mem_toFinset.mp hx))
  have hcard : l.toFinset.card = k := by
    rw [List.toFinset_card_of_nodup hnd, hlen]
  have heq : l.toFinset = Finset.range k := by
    refine Finset.eq_of_subset_of_card_le hsub ?_
    rw [hcard, Finset.card_range]
  intro i hi
  have hmem : i ∈ l.toFinset := by
    rw [heq]
    exact Finset.mem_range.mpr hi
  exact List.mem_toFinset.mp hmem

theorem get_num_partitions_some {base : List Nat} {entries : List (List Nat)} {k : Nat}
    (h : get_num_partitions base entries = some k) :
    k = (entries.filterMap (matchPartition base)).length ∧
    (entries.filterMap (matchPartition base)).length =
      maxIdx (entries.filterMap (matchPartition base)) + 1 := by
  unfold get_num_partitions at h
  by_cases he : (entries.filterMap (matchPartition base)).isEmpty = true
  · rw [if_pos he] at h
    exact Option.noConfusion h
  · rw [if_neg (fun hx => he hx)] at h
    by_cases hl : (entries.filterMap (matchPartition base)).length =
        maxIdx (entries.filterMap (matchPartition base)) + 1
    · rw [if_pos hl] at h
      injection h with h2
      exact ⟨h2.symm, hl⟩
    · rw [if_neg hl] at h
      exact Option.noConfusion h
/-- Two-character keys used by the concrete scenarios: `aK n` is the key
`"a<n>"`, `bK n` the key `"b<n>"`. -/
def aK (n : Nat) : Key := [97, 48 + n]

def bK (n : Nat) : Key := [98, 48 + n]

/-- A record with no payload fields. -/
def rec0 (k : Key) (ts : Int) : Record := ⟨k, ts, []⟩

/-- Definition following the spec's words for claim C2: the records of the
collection still available to the scan, i.e. the store records beyond the
cursor that survive the exclude-prefix and `endts` filters. -/
def specAvailable (st : ScannerState) : Nat :=
  ((allRecords st.col.stores).filter (fun r => saLtB st.startafter r.key &&
    !(st.excludePrefixes.any (fun p => p.isPrefixOf r.key)) && !(endtsSkip st r))).length

/-- C10: `reset` zeroes `scanned_count`, clears `startafter`, `lastkey` and
the secondary depletion flags, re-enables the scanner, and sets the total
count budget to 0 (unbounded), discarding the `count` cap the constructor
stored in `totalcount`; `stopbefore`, the exclude prefixes, `endts`,
`batchsize`, `max_next_records` and the accessor (stores and cache window)
are untouched. -/
theorem C10_reset_frame (st : ScannerState) :
    st.reset.scannedCount = 0 ∧ st.reset.totalcount = 0 ∧ st.reset.lastkey = none ∧
    st.reset.startafter = none ∧ st.reset.secondaryIsEmpty = [] ∧
    st.reset.enabled = true ∧ st.reset.stopbefore = st.stopbefore ∧
    st.reset.excludePrefixes = st.excludePrefixes ∧ st.reset.endts = st.endts ∧
    st.reset.batchsize = st.batchsize ∧ st.reset.maxNextRecords = st.maxNextRecords ∧
    st.reset.col = st.col ∧
    (∀ stores sec n bs mnr sa sb ex sk ets kR tR,
      (mkScanner stores sec n bs mnr sa sb ex sk ets kR tR).totalcount = n) :=
  ⟨rfl, rfl, rfl, rfl, rfl, rfl, rfl, rfl, rfl, rfl, rfl, rfl,
    fun _ _ _ _ _ _ _ _ _ _ _ _ => rfl⟩

/-- C9: a remote read through `_read_from_collection` retries any exception
but a user interrupt after a fixed 120000 ms wait, up to 10 attempts in all;
after the last failed attempt the exception just caught is re-raised; a
success returns after the attempt that produced it; a user interrupt is
never retried and propagates at once. -/
theorem C9_read_retry_policy {A : Type} (op : Nat → FetchOutcome A) :
    ((∀ i, i < 10 → op i = .err false) →
      readFromCollection op = (10, 9 * 120000, .err false)) ∧
    (∀ j a, j < 10 → (∀ t, t < j → op t = .err false) → op j = .ok a →
      readFromCollection op = (j + 1, j * 120000, .ok a)) ∧
    (∀ j, j < 10 → (∀ t, t < j → op t = .err false) → op j = .err true →
      readFromCollection op = (j + 1, j * 120000, .err true)) := by
  refine ⟨?_, ?_, ?_⟩
  · intro hall
    unfold readFromCollection
    have := retryGo_err_all op 120000 10 0 (by omega) (fun j hj => by
      rw [Nat.zero_add]
      exact hall j hj)
    simpa using this
  · intro j a hj hprev hok
    unfold readFromCollection
    exact retryGo_ok op 120000 j 10 0 a (by omega) (fun t ht => by
      rw [Nat.zero_add]
      exact hprev t ht) (by rw [Nat.zero_add]; exact hok)
  · intro j hj hprev hki
    unfold readFromCollection
    exact retryGo_interrupt op 120000 j 10 0 (by omega) (fun t ht => by
      rw [Nat.zero_add]
      exact hprev t ht) (by rw [Nat.zero_add]; exact hki)

/-- An operation that fails with a retryable exception on every attempt. -/
def opA : Nat → FetchOutcome Nat := fun _ => .err false

/-- An operation that fails twice, then succeeds. -/
def opB : Nat → FetchOutcome Nat := fun i => if i < 2 then .err false else .ok 7

/-- An operation that fails once, then raises a user interrupt. -/
def opC : Nat → FetchOutcome Nat := fun i => if i = 0 then .err false else .err true

theorem C9_read_retry_policy_witness :
    readFromCollection opA = (10, 9 * 120000, .err false) ∧
    readFromCollection opB = (3, 2 * 120000, .ok 7) ∧
    readFromCollection opC = (2, 1 * 120000, .err true) :=
  ⟨(C9_read_retry_policy opA).1 (fun _ _ => rfl),
   (C9_read_retry_policy opB).2.1 2 7 (by omega)
     (fun t ht => by simp [opB]; omega) (by simp [opB]),
   (C9_read_retry_policy opC).2.2 1 (by omega)
     (fun t ht => by have h0 : t = 0 := by omega
                     subst h0
                     rfl) rfl⟩

/-- C8: a partition count `some k` from `get_num_partitions` means exactly
that the number of matched entries equals the maximum matched index plus
one; when the matched indices are distinct this forces them to be the full
contiguous range `0..k-1`. -/
theorem C8_get_num_partitions_contiguous (base : List Nat) (entries : List (List Nat))
    (k i : Nat) (h : get_num_partitions base entries = some k)
    (hnd : (entries.filterMap (matchPartition base)).Nodup) (hi : i < k) :
    k = (entries.filterMap (matchPartition base)).length ∧
    i ∈ entries.filterMap (matchPartition base) := by
  obtain ⟨hk, hlen⟩ := get_num_partitions_some h
  refine ⟨hk, ?_⟩
  refine nodup_full_range hnd hk.symm ?_ i hi
  intro x hx
  have := mem_le_maxIdx hx
  omega

theorem C8_get_num_partitions_contiguous_witness :
    get_num_partitions [99] [[99, 95, 48], [99, 95, 49]] = some 2 ∧
    2 = ([[99, 95, 48], [99, 95, 49]].filterMap (matchPartition [99])).length ∧
    1 ∈ [[99, 95, 48], [99, 95, 49]].filterMap (matchPartition [99]) :=
  ⟨by decide,
   (C8_get_num_partitions_contiguous [99] [[99, 95, 48], [99, 95, 49]] 2 1
     (by decide) (by decide) (by decide)).1,
   (C8_get_num_partitions_contiguous [99] [[99, 95, 48], [99, 95, 49]] 2 1
     (by decide) (by decide) (by decide)).2⟩

/-- The base collection name (`"col"`) of the C8 counterexample. -/
def baseC : List Nat := [99, 111, 108]

theorem C8_leading_zero_gap_cex :
    get_num_partitions baseC [baseC ++ [95, 48], baseC ++ [95, 48, 48], baseC ++ [95, 50]] =
      some 3 ∧
    [baseC ++ [95, 48], baseC ++ [95, 48, 48], baseC ++ [95, 50]].filterMap
      (matchPartition baseC) = [0, 0, 2] ∧
    decide ((1 : Nat) ∈ ([0, 0, 2] : List Nat)) = false := by
  refine ⟨by decide, by decide, by decide⟩

/-- C7: on a well-formed cache window, the trim of `_CachedBlocksCollection.get`
drops every cached entry with key strictly below the requested `startafter`;
an entry with key equal to `startafter` is dropped only when some cached key
exceeds it; and for a single-partition accessor whose trimmed cache already
holds `count` entries, the call is served entirely from the cache: no fresh
records are fetched and the page is the front of the trimmed cache. -/
theorem C7_cache_trim_and_serve (c : CachedCol) (count : Nat) (s : Key)
    (startKey : Option Key) (e : Key × Record) (hC : cacheWF c = true)
    (he : e ∈ trimCache c.cache s)
    (hgt : c.cache.any (fun x => keyLt s x.1) = true)
    (h1 : c.stores.length = 1) (h2 : count ≤ (trimmedCache c (some s)).length) :
    keyLt e.1 s = false ∧ KLT s e.1 ∧
    cachedPrepare c count (some s) startKey = trimmedCache c (some s) ∧
    (CachedCol.get c count (some s) startKey).1 =
      ((trimmedCache c (some s)).take count).map Prod.snd := by
  have hpw : List.Pairwise KLT (c.cache.map (·.1)) := cacheWF_pairwise hC
  have hprep := cachedPrepare_cacheOnly c count (some s) startKey h1 h2
  refine ⟨?_, trimCache_mem_gt hpw hgt he, hprep, ?_⟩
  · rcases trimCache_mem_ge hpw he with h | h
    · exact keyLt_asymm h
    · rw [h]
      exact keyLt_irrefl s
  · show ((cachedPrepare c count (some s) startKey).take count).map Prod.snd = _
    rw [hprep]

/-- The single-partition accessor of the C7 scenarios: a store with keys
`[3]`, `[5]`, `[7]`, all three cached. -/
def stC7col : CachedCol := ⟨[[rec0 [3] 1, rec0 [5] 1, rec0 [7] 1]],
  [([3], rec0 [3] 1), ([5], rec0 [5] 1), ([7], rec0 [7] 1)]⟩

theorem C7_cache_trim_and_serve_witness :
    keyLt (([7] : Key), rec0 [7] 1).1 [5] = false ∧ KLT [5] (([7] : Key), rec0 [7] 1).1 ∧
    cachedPrepare stC7col 1 (some [5]) none = trimmedCache stC7col (some [5]) ∧
    (CachedCol.get stC7col 1 (some [5]) none).1 =
      ((trimmedCache stC7col (some [5])).take 1).map Prod.snd :=
  C7_cache_trim_and_serve stC7col 1 [5] none ([7], rec0 [7] 1)
    (by decide) (by decide) (by decide) (by decide) (by decide)

/-- The accessor of the C7 counterexample: the single cached entry's key
equals the requested `startafter` and no larger key is cached. -/
def c7eq : CachedCol := ⟨[[rec0 [5] 1]], [([5], rec0 [5] 1)]⟩

theorem C7_trim_keeps_equal_key_cex :
    cacheWF c7eq = true ∧
    trimCache c7eq.cache [5] = c7eq.cache ∧
    ([5], rec0 [5] 1) ∈ trimCache c7eq.cache [5] ∧
    keyLt (([5] : Key)) [5] = false ∧
    (CachedCol.get c7eq 1 (some [5]) none).1 = [rec0 [5] 1] := by
  refine ⟨by decide, by decide, by decide, by decide, by decide⟩
/-- The key (`"k"`) shared by the primary and secondary records of the C6
scenario. -/
def kK : Key := [107]

/-- C6 scenario: one primary record with timestamp 300 and one secondary
record with the same key, timestamp 250 and one extra field. -/
def stC6 : ScannerState := mkScanner [[⟨kK, 300, []⟩]] [(1, [⟨kK, 250, [(7, 42)]⟩])]
  0 100 10 none none [] none none true true

/-- C6: the secondary merge copies the secondary fields into the record, but
the yielded timestamp is the secondary one (250), not the maximum of primary
and secondary (300): `r.update(srecord)` overwrites `'_ts'` before the
`if ts > r['_ts']` comparison, so the merged timestamp always equals the
secondary timestamp. -/
theorem C6_secondary_merge_ts_bug :
    (getNewBatch 10 stC6).map (fun ro => ro.yields) = some [⟨kK, 250, [(7, 42)]⟩] ∧
    (∀ (r : Record) (e : SecEntry), (mergeSecondary r (some e)).ts = e.ts) ∧
    max (300 : Int) 250 = 300 ∧ decide ((250 : Int) = 300) = false := by
  refine ⟨by decide, ?_, by decide, by decide⟩
  intro r e
  simp [mergeSecondary]

/-- C5 scenario: keys `a1`, `b1`, `b2` with `stopbefore = "b"`. -/
def stC5 : ScannerState := mkScanner [[rec0 (aK 1) 1, rec0 (bK 1) 1, rec0 (bK 2) 1]]
  [] 0 100 10 none (some [98]) [] none none true true

/-- A disabled scanner state, for the never-yields-again part of C5. -/
def stDis : ScannerState :=
  { mkScanner [] [] 0 1 1 none none [] none none true true with enabled := false }

/-- C5: when a fetched record matches `stopbefore`, the batch generator
reports that record's key as the stop match, every record it yielded has a
strictly smaller key (so no record with key at or beyond the match is
yielded), the scanner ends disabled, and a disabled scanner's
`get_new_batch` yields nothing until `reset`. -/
theorem C5_stopbefore_stop_guarantees (fuel : Nat) (st : ScannerState) (ro : RunOut)
    (k : Key) (y : Record) (fuel2 : Nat) (st2 : ScannerState)
    (hS : storesWF st.col.stores = true) (hC : cacheWF st.col = true)
    (hSa : saWF st = true) (hstart : st.start = none)
    (hpre : st.enabled = true → st.totalcount ≠ 0 → st.scannedCount < st.totalcount)
    (hrun : getNewBatch fuel st = some ro) (hk : ro.stopKey = some k)
    (hy : y ∈ ro.yields) (hen2 : st2.enabled = false) :
    keyLt y.key k = true ∧ ro.st.enabled = false ∧
    getNewBatch fuel2 st2 = some ⟨[], { st2 with start := none }, none⟩ := by
  rw [getNewBatch_eq fuel st hstart] at hrun
  obtain ⟨c1, c2, c3, c4, c5, c6, c7, c8, c9, c10, c11, c12, c13, c14, c15, c16⟩ :=
    runBatch_spec fuel st st.batchsize (getMaxNextRecords st st.batchsize)
      none [] [] none ro hS hC hSa (getMaxNextRecords_le st st.batchsize)
      List.Pairwise.nil (Or.inl rfl)
      (fun ht => getMaxNextRecords_bud st st.batchsize ht) hpre hrun
  obtain ⟨hlt, hdis⟩ := c15 rfl k hk
  exact ⟨hlt y hy, hdis, getNewBatch_disabled fuel2 st2 hen2⟩

/-- The generator run of the C5 scenario. -/
def roC5 : RunOut := (getNewBatch 10 stC5).getD ⟨[], stC5, none⟩

theorem C5_stopbefore_stop_guarantees_witness :
    keyLt (rec0 (aK 1) 1).key (bK 1) = true ∧ roC5.st.enabled = false ∧
    getNewBatch 3 stDis = some ⟨[], { stDis with start := none }, none⟩ :=
  C5_stopbefore_stop_guarantees 10 stC5 roC5 (bK 1) (rec0 (aK 1) 1) 3 stDis
    (by decide) (by decide) (by decide) rfl (by decide) rfl (by decide) (by decide) rfl

/-- C4 scenario: keys `a1`, `b1`, `b2`, `c1` with exclude prefix `"b"`. -/
def stC4w : ScannerState := mkScanner
  [[rec0 (aK 1) 1, rec0 (bK 1) 1, rec0 (bK 2) 1, rec0 [99, 49] 1]]
  [] 0 100 10 none none [[98]] none none true true

/-- C4: no record yielded by the batch generator has a key starting with a
configured exclude prefix; the sentinel `prefix ++ '~'` sorts after every
sentinel-bounded key with that prefix; and on fetching a record whose key
starts with the exclude prefix, the page loop sets the cursor to
`prefix ++ '~'`, raises the jump flag and abandons the page without
yielding it. -/
theorem C4_exclude_jump_guarantees (fuel : Nat) (st : ScannerState) (ro : RunOut)
    (p : Key) (y : Record) (k : Key) (r : Record) (rs : List Record)
    (bc : Nat) (lsk : Option Key) (sm : List (Key × SecEntry))
    (hS : storesWF st.col.stores = true) (hC : cacheWF st.col = true)
    (hSa : saWF st = true) (hstart : st.start = none)
    (hpre : st.enabled = true → st.totalcount ≠ 0 → st.scannedCount < st.totalcount)
    (hrun : getNewBatch fuel st = some ro) (hp : p ∈ st.excludePrefixes)
    (hy : y ∈ ro.yields) (hpk : p.isPrefixOf k = true) (htf : tildeFree k = true)
    (hstop : stopMatch st r = false)
    (hfind : st.excludePrefixes.find? (fun e => e.isPrefixOf r.key) = some p) :
    p.isPrefixOf y.key = false ∧
    keyLt k (p ++ [limitKeyChar]) = true ∧
    (processPage st bc lsk sm (r :: rs)).st.startafter = some (p ++ [limitKeyChar]) ∧
    (processPage st bc lsk sm (r :: rs)).jump = true ∧
    (processPage st bc lsk sm (r :: rs)).yields = [] := by
  rw [getNewBatch_eq fuel st hstart] at hrun
  obtain ⟨c1, c2, c3, c4, c5, c6, c7, c8, c9, c10, c11, c12, c13, c14, c15, c16⟩ :=
    runBatch_spec fuel st st.batchsize (getMaxNextRecords st st.batchsize)
      none [] [] none ro hS hC hSa (getMaxNextRecords_le st st.batchsize)
      List.Pairwise.nil (Or.inl rfl)
      (fun ht => getMaxNextRecords_bud st st.batchsize ht) hpre hrun
  obtain ⟨newys, hys, g1, _⟩ := c13
  have hpp : processPage st bc lsk sm (r :: rs) =
      ⟨{ st with startafter := some (p ++ [limitKeyChar]) }, bc, lsk, sm,
        1, 1, true, none, []⟩ := by
    simp [processPage, hstop, hfind]
  refine ⟨?_, ?_, ?_, ?_, ?_⟩
  · rw [hys] at hy
    simp only [List.nil_append] at hy
    exact g1 y hy p hp
  · exact keyLt_sentinel (List.isPrefixOf_iff_prefix.mp hpk) htf
  · rw [hpp]
  · rw [hpp]
  · rw [hpp]

/-- The generator run of the C4 scenario. -/
def roC4 : RunOut := (getNewBatch 10 stC4w).getD ⟨[], stC4w, none⟩

theorem C4_exclude_jump_guarantees_witness :
    ([98] : Key).isPrefixOf (rec0 (aK 1) 1).key = false ∧
    keyLt (bK 2) (([98] : Key) ++ [limitKeyChar]) = true ∧
    (processPage stC4w 100 none [] (rec0 (bK 1) 1 :: [])).st.startafter =
      some (([98] : Key) ++ [limitKeyChar]) ∧
    (processPage stC4w 100 none [] (rec0 (bK 1) 1 :: [])).jump = true ∧
    (processPage stC4w 100 none [] (rec0 (bK 1) 1 :: [])).yields = [] :=
  C4_exclude_jump_guarantees 10 stC4w roC4 [98] (rec0 (aK 1) 1) (bK 2)
    (rec0 (bK 1) 1) [] 100 none []
    (by decide) (by decide) (by decide) rfl (by decide) rfl (by decide) (by decide)
    (by decide) (by decide) (by decide) (by decide)
/-- C3 scenario: two records with batch size 1, so the scan yields two
one-record batches and stops. -/
def stC3w : ScannerState := mkScanner [[rec0 (aK 1) 1, rec0 (aK 2) 1]] [] 0 1 5
  none none [] none none true true

/-- The scan of the C3 scenario. -/
def tripC3 : List (List Record) × ScannerState × Option Key :=
  (scanBatches 10 10 stC3w).getD ([], stC3w, none)

/-- C3: with a positive batch size and page size, the scan over well-formed
finite stores finishes within an explicit iteration bound (two more outer
rounds than there are records beyond the cursor suffice), with or without a
total-count cap (an enabled scanner's scanned count stays below any cap, as
every reachable state satisfies), and every batch any finishing scan yields
is non-empty and holds at most `batchsize` records. -/
theorem C3_scan_batches_terminates_nonempty_bounded (st : ScannerState)
    (fuel innerFuel : Nat) (bs : List (List Record)) (st2 : ScannerState)
    (k : Option Key) (b : List Record)
    (hS : storesWF st.col.stores = true) (hC : cacheWF st.col = true)
    (hSa : saWF st = true) (hstart : st.start = none)
    (hbs : 1 ≤ st.batchsize) (hmx : 1 ≤ st.maxNextRecords)
    (hpre : st.enabled = true → st.totalcount ≠ 0 → st.scannedCount < st.totalcount)
    (hscan : scanBatches fuel innerFuel st = some (bs, st2, k)) (hb : b ∈ bs) :
    (scanBatches (remBeyond st.col.stores st.startafter + 2)
      (remBeyond st.col.stores st.startafter + 1) st).isSome = true ∧
    1 ≤ b.length ∧ b.length ≤ st.batchsize := by
  have hterm := scanBatches_total (remBeyond st.col.stores st.startafter + 2)
    (remBeyond st.col.stores st.startafter + 1) st hS hC hSa hstart hbs hmx hpre
    (Nat.lt_succ_self _) (Nat.le_refl _)
  have hbatch := scanBatches_batches fuel innerFuel st bs st2 k hS hC hSa hstart
    hpre hscan b hb
  exact ⟨hterm, hbatch.1, hbatch.2⟩

/-- The capped C3 scenario: three records, a total-count cap of 2 and batch
size 1, so the scan yields two one-record batches and stops at the cap. -/
def stC3c : ScannerState := mkScanner
  [[rec0 (aK 1) 1, rec0 (aK 2) 1, rec0 (aK 3) 1]] [] 2 1 5
  none none [] none none true true

/-- The scan of the capped C3 scenario. -/
def tripC3c : List (List Record) × ScannerState × Option Key :=
  (scanBatches 10 10 stC3c).getD ([], stC3c, none)

theorem C3_scan_batches_terminates_nonempty_bounded_witness :
    ((scanBatches (remBeyond stC3w.col.stores stC3w.startafter + 2)
      (remBeyond stC3w.col.stores stC3w.startafter + 1) stC3w).isSome = true ∧
    1 ≤ [rec0 (aK 1) 1].length ∧ [rec0 (aK 1) 1].length ≤ stC3w.batchsize) ∧
    ((scanBatches (remBeyond stC3c.col.stores stC3c.startafter + 2)
      (remBeyond stC3c.col.stores stC3c.startafter + 1) stC3c).isSome = true ∧
    1 ≤ [rec0 (aK 2) 1].length ∧ [rec0 (aK 2) 1].length ≤ stC3c.batchsize) :=
  ⟨C3_scan_batches_terminates_nonempty_bounded stC3w 10 10 tripC3.1 tripC3.2.1
    tripC3.2.2 [rec0 (aK 1) 1]
    (by decide) (by decide) (by decide) rfl (by decide) (by decide) (by decide)
    rfl (by decide),
   C3_scan_batches_terminates_nonempty_bounded stC3c 10 10 tripC3c.1 tripC3c.2.1
    tripC3c.2.2 [rec0 (aK 2) 1]
    (by decide) (by decide) (by decide) rfl (by decide) (by decide) (by decide)
    rfl (by decide)⟩

/-- The C3 counterexample scanner: one record, `batchsize = 0`. -/
def stC3x : ScannerState := mkScanner [[rec0 (aK 1) 1]] [] 0 0 3 none none [] none
  none true true

theorem C3_zero_batchsize_divergence_cex :
    storesWF stC3x.col.stores = true ∧ stC3x.enabled = true ∧
    (allRecords stC3x.col.stores).length = 1 ∧ scanDiverges stC3x :=
  ⟨by decide, rfl, rfl,
   fun fuel innerFuel => scanBatches_stall fuel innerFuel stC3x (by decide) rfl⟩

/-- The C2 scenario: two partitions holding keys `a1..a4` and `b1..b4`, a
count cap of 8 and pages of 2 records. -/
def stC2 : ScannerState := mkScanner
  [[rec0 (aK 1) 1, rec0 (aK 2) 2, rec0 (aK 3) 3, rec0 (aK 4) 4],
   [rec0 (bK 1) 1, rec0 (bK 2) 2, rec0 (bK 3) 3, rec0 (bK 4) 4]]
  [] 8 100 2 none none [] none none true true

/-- C2: the scan of the C2 scenario returns 6 records in all, although the
partitions hold 8 available records and the count cap is 8, so the batch
total differs from `min(count, available)`: the accessor's refetch starts
every partition after the newest cached key across all partitions
(scanner.py line 88), silently skipping `a3` and `a4`. -/
theorem C2_partition_cache_skips_records_bug :
    storesWF stC2.col.stores = true ∧ cacheWF stC2.col = true ∧ saWF stC2 = true ∧
    stC2.totalcount = 8 ∧ specAvailable stC2 = 8 ∧
    min stC2.totalcount (specAvailable stC2) = 8 ∧
    (scanBatches 30 30 stC2).map (fun r => (r.1.map List.length).sum) = some 6 ∧
    decide ((6 : Nat) = min stC2.totalcount (specAvailable stC2)) = false := by
  refine ⟨by decide, by decide, by decide, by decide, by decide, by decide,
    by decide, by decide⟩

/-- C1: under well-formed partition stores (each sorted, pairwise disjoint,
at least one partition) and no server-side `start` seek, the keys of the
records yielded by one `get_new_batch` run are strictly ascending and
duplicate-free. -/
theorem C1_get_new_batch_strictly_ascending (fuel : Nat) (st : ScannerState)
    (ro : RunOut)
    (hS : storesWF st.col.stores = true) (hC : cacheWF st.col = true)
    (hSa : saWF st = true) (hstart : st.start = none)
    (hpre : st.enabled = true → st.totalcount ≠ 0 → st.scannedCount < st.totalcount)
    (hpart : 1 ≤ st.col.stores.length)
    (hrun : getNewBatch fuel st = some ro) :
    List.Pairwise KLT (ro.yields.map (fun r => r.key)) ∧
    (ro.yields.map (fun r => r.key)).Nodup := by
  rw [getNewBatch_eq fuel st hstart] at hrun
  obtain ⟨c1, c2, c3, c4, c5, c6, c7, c8, c9, c10, c11, c12, c13, c14, c15, c16⟩ :=
    runBatch_spec fuel st st.batchsize (getMaxNextRecords st st.batchsize)
      none [] [] none ro hS hC hSa (getMaxNextRecords_le st st.batchsize)
      List.Pairwise.nil (Or.inl rfl)
      (fun ht => getMaxNextRecords_bud st st.batchsize ht) hpre hrun
  exact ⟨c11, nodup_of_pairwise_klt c11⟩

/-- The C1 witness scanner: two sorted, disjoint partitions. -/
def stC1w : ScannerState := mkScanner [[rec0 (aK 1) 1, rec0 (aK 2) 2], [rec0 (bK 1) 1]]
  [] 0 100 10 none none [] none none true true

/-- The generator run of the C1 witness scenario. -/
def roC1 : RunOut := (getNewBatch 10 stC1w).getD ⟨[], stC1w, none⟩

theorem C1_get_new_batch_strictly_ascending_witness :
    List.Pairwise KLT (roC1.yields.map (fun r => r.key)) ∧
    (roC1.yields.map (fun r => r.key)).Nodup :=
  C1_get_new_batch_strictly_ascending 10 stC1w roC1
    (by decide) (by decide) (by decide) rfl (by decide) (by decide) rfl

/-- The C1 counterexample scanner: a single sorted partition scanned with the
one-shot server-side `start` seek key set. -/
def stC1x : ScannerState := mkScanner [[rec0 (aK 1) 1]] [] 0 5 3 none none []
  (some [97]) none true true

instance : DecidableRel KLT := fun a b => by
  unfold KLT
  infer_instance

theorem C1_start_key_duplicates_cex :
    storesWF stC1x.col.stores = true ∧ cacheWF stC1x.col = true ∧
    saWF stC1x = true ∧ 1 ≤ stC1x.col.stores.length ∧
    (getNewBatch 10 stC1x).map (fun ro => ro.yields.map (fun r => r.key)) =
      some [aK 1, aK 1, aK 1, aK 1, aK 1] ∧
    decide (List.Pairwise KLT [aK 1, aK 1, aK 1, aK 1, aK 1]) = false := by
  refine ⟨by decide, by decide, by decide, by decide, by decide, by decide⟩
